import Mathlib

/-!
Verification of the dallaspds Personal Data Server against its specification.

The development shallowly embeds the Rust sources:
  - crates/dallaspds-crypto/src/tid.rs        (TID generation and base32-sortkey)
  - crates/dallaspds-repo/src/operations.rs   (repository record operations)
  - crates/dallaspds-repo/src/car.rs          (full and diff CAR export)
  - crates/dallaspds-server/src/routes/repo.rs    (write orchestration routes)
  - crates/dallaspds-server/src/routes/server.rs  (createAccount)
  - crates/dallaspds-server/src/firehose/{sequencer,emit,stream}.rs
  - crates/dallaspds-storage-sqlite/src/{account,event}.rs

Components living in external crates (atrium-repo, serde_ipld_dagcbor,
atrium-crypto) are modelled from the specification: the DAG-CBOR codec is
implemented concretely (major types 0,1,2,3,4,5,7 with minimal-length heads)
and proved to round-trip; the MST is a persistent ordered map; SHA-256 content
addressing is modelled by an injective digest function; deterministic ECDSA is
modelled by a deterministic signature function together with the verifier that
accepts exactly that signature.

Rust byte strings are modelled as List Nat.  Machine integers are Nat/Int with
explicit wrap-around where the Rust code can overflow.
-/

namespace PDS

/-- Byte strings (Vec<u8> / &[u8]); entries are byte values. -/
abbrev Bytes := List Nat

/-- UTF-8 bytes of a Rust string literal whose characters are ASCII
(the code points double as byte values). -/
def strBytes (s : String) : Bytes := s.data.map Char.toNat

/-- Big-endian encoding of a value into exactly k bytes (value < 256^k). -/
def natBE : Nat → Nat → Bytes
  | 0, _ => []
  | k + 1, v => natBE k (v / 256) ++ [v % 256]

/-- Big-endian byte-list to value. -/
def beVal (bs : Bytes) : Nat := bs.foldl (fun a b => a * 256 + b) 0

/-- CBOR head for a major type (< 8) and an argument n (< 2^64),
minimal-length form as required by DAG-CBOR (spec section 4.1). -/
def encHead (major : Nat) (n : Nat) : Bytes :=
  if n < 24 then [32 * major + n]
  else if n < 256 then [32 * major + 24, n]
  else if n < 65536 then (32 * major + 25) :: natBE 2 n
  else if n < 4294967296 then (32 * major + 26) :: natBE 4 n
  else (32 * major + 27) :: natBE 8 n

/-- Decode a CBOR head: returns (major, argument, rest). -/
def decHead : Bytes → Option (Nat × Nat × Bytes)
  | [] => none
  | b :: rest =>
    let major := b / 32
    let info := b % 32
    if info < 24 then some (major, info, rest)
    else if info = 24 then
      match rest with
      | n :: r => some (major, n, r)
      | [] => none
    else if info = 25 then
      if 2 ≤ rest.length then some (major, beVal (rest.take 2), rest.drop 2) else none
    else if info = 26 then
      if 4 ≤ rest.length then some (major, beVal (rest.take 4), rest.drop 4) else none
    else if info = 27 then
      if 8 ≤ rest.length then some (major, beVal (rest.take 8), rest.drop 8) else none
    else none

mutual
/-- DAG-CBOR values as produced and consumed by serde_ipld_dagcbor for the
record payloads of this PDS (no floats, no indefinite lengths). -/
inductive Val where
  | vnull : Val
  | vbool : Bool → Val
  | vint : Int → Val
  | vbytes : Bytes → Val
  | vtext : Bytes → Val
  | varr : ValList → Val
  | vmap : EntryList → Val
deriving DecidableEq

/-- Array elements. -/
inductive ValList where
  | nil : ValList
  | cons : Val → ValList → ValList
deriving DecidableEq

/-- Map entries: text key bytes paired with a value. -/
inductive EntryList where
  | nil : EntryList
  | cons : Bytes → Val → EntryList → EntryList
deriving DecidableEq
end

/-- Number of array elements. -/
def ValList.length : ValList → Nat
  | .nil => 0
  | .cons _ vs => 1 + vs.length

/-- Number of map entries. -/
def EntryList.length : EntryList → Nat
  | .nil => 0
  | .cons _ _ kvs => 1 + kvs.length

mutual
/-- DAG-CBOR encoding of a value (deterministic; spec section 4.1). -/
def encVal : Val → Bytes
  | .vnull => encHead 7 22
  | .vbool false => encHead 7 20
  | .vbool true => encHead 7 21
  | .vint n => if 0 ≤ n then encHead 0 n.toNat else encHead 1 (-1 - n).toNat
  | .vbytes b => encHead 2 b.length ++ b
  | .vtext s => encHead 3 s.length ++ s
  | .varr xs => encHead 4 xs.length ++ encValList xs
  | .vmap kvs => encHead 5 kvs.length ++ encEntryList kvs

/-- Encoding of consecutive array elements. -/
def encValList : ValList → Bytes
  | .nil => []
  | .cons v vs => encVal v ++ encValList vs

/-- Encoding of consecutive map entries (text key then value). -/
def encEntryList : EntryList → Bytes
  | .nil => []
  | .cons k v kvs => encHead 3 k.length ++ k ++ encVal v ++ encEntryList kvs
end

mutual
/-- Fuel needed to decode an encoded value (upper-bounded by the encoding
length). -/
def sizeVal : Val → Nat
  | .vnull => 1
  | .vbool _ => 1
  | .vint _ => 1
  | .vbytes _ => 1
  | .vtext _ => 1
  | .varr xs => 1 + sizeValList xs
  | .vmap kvs => 1 + sizeEntryList kvs

/-- Fuel needed to decode consecutive array elements. -/
def sizeValList : ValList → Nat
  | .nil => 0
  | .cons v vs => 1 + sizeVal v + sizeValList vs

/-- Fuel needed to decode consecutive map entries. -/
def sizeEntryList : EntryList → Nat
  | .nil => 0
  | .cons _ v kvs => 1 + sizeVal v + sizeEntryList kvs
end

mutual
/-- Representability in the 64-bit CBOR head (Rust lengths are usize,
integers are i64/u64, so every value handled by the PDS satisfies this). -/
def wfVal : Val → Bool
  | .vnull => true
  | .vbool _ => true
  | .vint n => if 0 ≤ n then decide (n.toNat < 2 ^ 64) else decide ((-1 - n).toNat < 2 ^ 64)
  | .vbytes b => decide (b.length < 2 ^ 64)
  | .vtext s => decide (s.length < 2 ^ 64)
  | .varr xs => decide (xs.length < 2 ^ 64) && wfValList xs
  | .vmap kvs => decide (kvs.length < 2 ^ 64) && wfEntryList kvs

/-- Representability for array elements. -/
def wfValList : ValList → Bool
  | .nil => true
  | .cons v vs => wfVal v && wfValList vs

/-- Representability for map entries. -/
def wfEntryList : EntryList → Bool
  | .nil => true
  | .cons k v kvs => decide (k.length < 2 ^ 64) && wfVal v && wfEntryList kvs
end

mutual
/-- DAG-CBOR decoding with fuel; returns the value and the remaining bytes. -/
def decVal : Nat → Bytes → Option (Val × Bytes)
  | 0, _ => none
  | fuel + 1, bs =>
    match decHead bs with
    | some (0, n, r) => some (.vint (Int.ofNat n), r)
    | some (1, n, r) => some (.vint (-1 - Int.ofNat n), r)
    | some (2, n, r) =>
      if n ≤ r.length then some (.vbytes (r.take n), r.drop n) else none
    | some (3, n, r) =>
      if n ≤ r.length then some (.vtext (r.take n), r.drop n) else none
    | some (4, n, r) =>
      match decValList fuel n r with
      | some (xs, r2) => some (.varr xs, r2)
      | none => none
    | some (5, n, r) =>
      match decEntryList fuel n r with
      | some (kvs, r2) => some (.vmap kvs, r2)
      | none => none
    | some (7, 20, r) => some (.vbool false, r)
    | some (7, 21, r) => some (.vbool true, r)
    | some (7, 22, r) => some (.vnull, r)
    | _ => none

/-- Decode exactly n consecutive array elements. -/
def decValList : Nat → Nat → Bytes → Option (ValList × Bytes)
  | _, 0, bs => some (.nil, bs)
  | 0, _ + 1, _ => none
  | fuel + 1, n + 1, bs =>
    match decVal fuel bs with
    | some (v, r) =>
      match decValList fuel n r with
      | some (vs, r2) => some (.cons v vs, r2)
      | none => none
    | none => none

/-- Decode exactly n consecutive map entries. -/
def decEntryList : Nat → Nat → Bytes → Option (EntryList × Bytes)
  | _, 0, bs => some (.nil, bs)
  | 0, _ + 1, _ => none
  | fuel + 1, n + 1, bs =>
    match decHead bs with
    | some (3, kn, r) =>
      if kn ≤ r.length then
        match decVal fuel (r.drop kn) with
        | some (v, r2) =>
          match decEntryList fuel n r2 with
          | some (kvs, r3) => some (.cons (r.take kn) v kvs, r3)
          | none => none
        | none => none
      else none
    | _ => none
end

/-! ## TID generation (crates/dallaspds-crypto/src/tid.rs) -/

/-- Base32-sortkey alphabet used by AT Protocol TIDs (tid.rs BASE32_SORTKEY). -/
def BASE32_SORTKEY : List Char := "234567abcdefghijklmnopqrstuvwxyz".data

/-- Character for a 5-bit digit. -/
def b32char (i : Nat) : Char := BASE32_SORTKEY.getD i ' '

/-- LSB-first 5-bit digits of a value, k of them (the encode loop masks with
0x1F and shifts right by 5 on each step). -/
def b32digitsLE : Nat → Nat → List Nat
  | 0, _ => []
  | k + 1, v => v % 32 :: b32digitsLE k (v / 32)

/-- The 13 characters of a TID, most significant first. -/
def b32chars13 (value : Nat) : List Char :=
  ((b32digitsLE 13 value).reverse).map b32char

/-- encode_base32_sortkey (tid.rs): 13-character base32-sortkey string,
MSB first. -/
def encode_base32_sortkey (value : Nat) : String :=
  String.mk (b32chars13 value)

/-- 2^64, the modulus of Rust u64 arithmetic. -/
def U64MOD : Nat := 2 ^ 64

/-- TidGenerator state (tid.rs): the 10-bit clock id and the atomic `last`. -/
structure TidGenerator where
  clockId : Nat
  last : Nat
deriving DecidableEq

/-- TidGenerator::new with the drawn random u16 made explicit
(`rand::random::<u16>() & 0x03FF`; masking with 0x03FF is mod 1024). -/
def TidGenerator.mkNew (randU16 : Nat) : TidGenerator :=
  { clockId := randU16 % 1024, last := 0 }

/-- The committed value of one next_tid call (tid.rs lines 36-46):
candidate = (now_micros << 10) | clock_id; if the candidate does not exceed
`last` the generator stores last + 1 instead.  u64 wrap-around of the shift
and of the increment is made explicit. -/
def TidGenerator.candidate (g : TidGenerator) (nowMicros : Nat) : Nat :=
  ((nowMicros * 1024) % U64MOD) ||| g.clockId

/-- The value committed by the CAS loop for this candidate. -/
def TidGenerator.nextValue (g : TidGenerator) (nowMicros : Nat) : Nat :=
  if g.candidate nowMicros > g.last then g.candidate nowMicros else (g.last + 1) % U64MOD

/-- next_tid (tid.rs): returns the encoded TID and the updated generator.
The CAS loop is modelled sequentially (the routes use one local generator
per request, with no concurrent callers). -/
def TidGenerator.nextTid (g : TidGenerator) (nowMicros : Nat) : String × TidGenerator :=
  let value := g.nextValue nowMicros
  (encode_base32_sortkey value, { g with last := value })

/-! ## Content addressing and blocks

CIDs are CIDv1 with SHA-256 multihash (spec section 4.1).  The SHA-256 digest
is modelled by an injective function of the block (standing for collision
resistance); blocks are kept structured, with their genuine DAG-CBOR byte
encoding available through blockBytes. -/

/-- A CID: codec tag and digest. -/
structure Cid where
  codec : Nat
  digest : Bytes
deriving DecidableEq

/-- cid_to_bytes (blockstore_adapter.rs): version byte, codec, multihash
digest. -/
def cidToBytes (c : Cid) : Bytes := 1 :: c.codec :: c.digest

/-- cid_from_bytes (blockstore_adapter.rs): parse back; fails on malformed
input. -/
def cidFromBytes (b : Bytes) : Option Cid :=
  match b with
  | 1 :: codec :: rest => some ⟨codec, rest⟩
  | _ => none

/-- cid.to_string() (base32lower CIDv1 display, routes/repo.rs
cid_bytes_to_string); the display form is injective in the bytes, modelled by
the bytes themselves. -/
def cidToString (c : Cid) : Bytes := cidToBytes c

/-- A commit record (spec section 3): did, version 3, data (MST root CID),
rev (TID), prev (previous commit CID or absent), ECDSA signature. -/
structure CommitData where
  did : Bytes
  version : Nat
  data : Cid
  rev : Bytes
  prev : Option Cid
  sig : Bytes
deriving DecidableEq

/-- A stored block: a raw DAG-CBOR record, an MST node, or a signed commit. -/
inductive Block where
  | raw : Bytes → Block
  | node : List (Bytes × Cid) → Block
  | commit : CommitData → Block
deriving DecidableEq

def keyData : Bytes := strBytes "data"
def keyDid : Bytes := strBytes "did"
def keyPrev : Bytes := strBytes "prev"
def keyRev : Bytes := strBytes "rev"
def keySig : Bytes := strBytes "sig"
def keyVersion : Bytes := strBytes "version"

/-- DAG-CBOR value of an optional CID link. -/
def prevVal : Option Cid → Val
  | none => .vnull
  | some p => .vbytes (cidToBytes p)

/-- DAG-CBOR map of a signed commit; keys in lexicographic byte order
(data, did, prev, rev, sig, version). -/
def commitEntries (c : CommitData) : EntryList :=
  .cons keyData (.vbytes (cidToBytes c.data))
    (.cons keyDid (.vtext c.did)
      (.cons keyPrev (prevVal c.prev)
        (.cons keyRev (.vtext c.rev)
          (.cons keySig (.vbytes c.sig)
            (.cons keyVersion (.vint c.version) .nil)))))

/-- DAG-CBOR map of the commit with `sig` absent (the byte string that gets
signed, spec section 3). -/
def commitEntriesNoSig (c : CommitData) : EntryList :=
  .cons keyData (.vbytes (cidToBytes c.data))
    (.cons keyDid (.vtext c.did)
      (.cons keyPrev (prevVal c.prev)
        (.cons keyRev (.vtext c.rev)
          (.cons keyVersion (.vint c.version) .nil))))

/-- DAG-CBOR bytes of a signed commit. -/
def encCommit (c : CommitData) : Bytes := encVal (.vmap (commitEntries c))

/-- DAG-CBOR bytes of the commit with `sig` absent. -/
def encCommitNoSig (c : CommitData) : Bytes := encVal (.vmap (commitEntriesNoSig c))

/-- DAG-CBOR map of an MST node: each key maps to its record CID link. -/
def nodeEntriesVal : List (Bytes × Cid) → EntryList
  | [] => .nil
  | (k, c) :: t => .cons k (.vbytes (cidToBytes c)) (nodeEntriesVal t)

/-- The stored byte form of a block. -/
def blockBytes : Block → Bytes
  | .raw b => b
  | .node es => encVal (.vmap (nodeEntriesVal es))
  | .commit c => encCommit c

/-- Length-prefixed embedding (Bytes entries are unbounded naturals, so a
single prefix element suffices and is trivially injective). -/
def lp (b : Bytes) : Bytes := b.length :: b

/-- Flattened, length-prefixed node entries. -/
def flatNodeEntries : List (Bytes × Cid) → Bytes
  | [] => []
  | (k, c) :: t => lp k ++ lp (cidToBytes c) ++ flatNodeEntries t

/-- Byte form of an optional CID link. -/
def prevBytes : Option Cid → Bytes
  | none => []
  | some p => cidToBytes p

/-- Injective stand-in for SHA-256 over the block content: distinct blocks
receive distinct digests (collision resistance of the hash). -/
def blockDigest : Block → Bytes
  | .raw b => 0 :: b
  | .node es => 1 :: flatNodeEntries es
  | .commit c => 2 :: (lp c.did ++ lp (cidToBytes c.data) ++ lp c.rev ++
      lp (prevBytes c.prev) ++ lp c.sig ++ [c.version])

/-- Multicodec 0x71 = dag-cbor. -/
def DAG_CBOR_CODEC : Nat := 113

/-- CID of a block (compute_cid in blockstore_adapter.rs with SHA2-256). -/
def cidOfBlock (b : Block) : Cid := ⟨DAG_CBOR_CODEC, blockDigest b⟩

/-! ## Block store (RepoStore trait, SQLite repo_block table) -/

/-- DID-scoped content-addressed block store: (did, cid bytes) to block. -/
structure BlockStore where
  blocks : List ((Bytes × Bytes) × Block)
deriving DecidableEq

/-- get_block. -/
def getBlock (st : BlockStore) (did : Bytes) (cidB : Bytes) : Option Block :=
  (st.blocks.find? (fun e => decide (e.1 = (did, cidB)))).map (fun e => e.2)

/-- put_block: INSERT OR IGNORE (idempotent put; content addressing makes a
second put for the same key carry equal bytes). -/
def putBlock (st : BlockStore) (did : Bytes) (cidB : Bytes) (b : Block) : BlockStore :=
  match getBlock st did cidB with
  | some _ => st
  | none => ⟨st.blocks ++ [((did, cidB), b)]⟩

/-! ## Signing (modelled from the spec, section 4.2)

Deterministic ECDSA: the signature is a deterministic function of the key and
the message; verification against the matching public key accepts exactly that
signature. -/

/-- Deterministic signature of a message under a private key. -/
def mkSig (key msg : Bytes) : Bytes := lp key ++ msg

/-- Verification against the key pair of `key` accepts exactly the
deterministic signature. -/
def verifySig (key msg sig : Bytes) : Bool := sig == mkSig key msg

/-! ## MST (modelled from the spec, section 3): a persistent ordered map from
`{collection}/{rkey}` keys to record CIDs.  The concrete tree shape lives in
atrium-repo; the claims under verification depend on the map semantics and on
the node block that carries the entries. -/

/-- Lexicographic byte-string comparison. -/
def bytesLt : Bytes → Bytes → Bool
  | [], [] => false
  | [], _ :: _ => true
  | _ :: _, [] => false
  | a :: as_, b :: bs => if a < b then true else if a = b then bytesLt as_ bs else false

/-- Ordered-map lookup. -/
def mstLookup (k : Bytes) : List (Bytes × Cid) → Option Cid
  | [] => none
  | (k2, c) :: t => if k2 = k then some c else mstLookup k t

/-- Ordered-map insert (replaces an existing binding). -/
def mstInsert (k : Bytes) (c : Cid) : List (Bytes × Cid) → List (Bytes × Cid)
  | [] => [(k, c)]
  | (k2, c2) :: t =>
    if k = k2 then (k, c) :: t
    else if bytesLt k k2 then (k, c) :: (k2, c2) :: t
    else (k2, c2) :: mstInsert k c t

/-- Ordered-map removal. -/
def mstRemove (k : Bytes) : List (Bytes × Cid) → List (Bytes × Cid)
  | [] => []
  | (k2, c2) :: t => if k2 = k then t else (k2, c2) :: mstRemove k t

/-! ## Repository operations (crates/dallaspds-repo/src/operations.rs) -/

/-- PdsError kinds that arise on these paths (core/src/error.rs). -/
inductive PdsErr where
  | storage : PdsErr
  | invalidRequest : PdsErr
  | accountNotFound : PdsErr
deriving DecidableEq

/-- RecordWriteOutput (operations.rs). -/
structure RecordWriteOutput where
  uri : Bytes
  cid : Bytes
  newRoot : Bytes
  newRev : String
deriving DecidableEq

/-- RecordOutput (operations.rs). -/
structure RecordOutput where
  uri : Bytes
  cid : Bytes
  value : Val
deriving DecidableEq

/-- Path separator byte `/`. -/
def slashByte : Bytes := [47]

/-- The MST path "{collection}/{rkey}". -/
def mstPath (collection rkey : Bytes) : Bytes := collection ++ slashByte ++ rkey

/-- The record AT-URI "at://{did}/{collection}/{rkey}". -/
def atUri (did collection rkey : Bytes) : Bytes :=
  strBytes "at://" ++ did ++ slashByte ++ collection ++ slashByte ++ rkey

/-- Repository::open (atrium-repo; spec section 4.4 `open`): load the commit
block at the root CID and the MST node it points to. -/
def openRepo (st : BlockStore) (did : Bytes) (root : Cid) :
    Except PdsErr (CommitData × List (Bytes × Cid)) :=
  match getBlock st did (cidToBytes root) with
  | some (.commit c) =>
    match getBlock st did (cidToBytes c.data) with
    | some (.node es) => .ok (c, es)
    | _ => .error .storage
  | _ => .error .storage

/-- Build, sign and store the commit for new MST entries; shared tail of the
three mutating operations (operations.rs steps: new rev TID, prev = old root,
sign DAG-CBOR with sig absent, finalize).  Returns the updated store, the new
root CID bytes and the rev. -/
def signAndStoreCommit (st : BlockStore) (did key : Bytes)
    (entries : List (Bytes × Cid)) (rootCid : Cid) (g : TidGenerator) (now : Nat) :
    BlockStore × TidGenerator × Bytes × String :=
  let nodeBlock := Block.node entries
  let nodeCid := cidOfBlock nodeBlock
  let st1 := putBlock st did (cidToBytes nodeCid) nodeBlock
  let revp := g.nextTid now
  let unsigned : CommitData :=
    { did := did, version := 3, data := nodeCid, rev := strBytes revp.1,
      prev := some rootCid, sig := [] }
  let sigB := mkSig key (encCommitNoSig unsigned)
  let signed : CommitData := { unsigned with sig := sigB }
  let commitBlock := Block.commit signed
  let newRootCid := cidOfBlock commitBlock
  let st2 := putBlock st1 did (cidToBytes newRootCid) commitBlock
  (st2, revp.2, cidToBytes newRootCid, revp.1)

/-- create_repo (operations.rs): empty MST, initial signed commit with
prev = null.  The rev TID that atrium-repo draws internally is made explicit
through the generator. -/
def createRepo (st : BlockStore) (did key : Bytes) (g : TidGenerator) (now : Nat) :
    BlockStore × Bytes × String :=
  let nodeBlock := Block.node []
  let nodeCid := cidOfBlock nodeBlock
  let st1 := putBlock st did (cidToBytes nodeCid) nodeBlock
  let revp := g.nextTid now
  let unsigned : CommitData :=
    { did := did, version := 3, data := nodeCid, rev := strBytes revp.1,
      prev := none, sig := [] }
  let sigB := mkSig key (encCommitNoSig unsigned)
  let signed : CommitData := { unsigned with sig := sigB }
  let commitBlock := Block.commit signed
  let rootCid := cidOfBlock commitBlock
  let st2 := putBlock st1 did (cidToBytes rootCid) commitBlock
  (st2, cidToBytes rootCid, revp.1)

/-- create_record (operations.rs): absent rkey is generated from the TID
generator; the record block is written, the MST entry added (atrium add_raw
fails when the key already exists), and a new signed commit stored. -/
def create_record (st : BlockStore) (did key collection : Bytes)
    (rkey : Option Bytes) (record : Val) (g : TidGenerator) (now : Nat)
    (currentRoot : Bytes) :
    Except PdsErr (BlockStore × TidGenerator × RecordWriteOutput) :=
  match cidFromBytes currentRoot with
  | none => .error .storage
  | some rootCid =>
    match openRepo st did rootCid with
    | .error e => .error e
    | .ok (_, entries) =>
      let rkp : Bytes × TidGenerator :=
        match rkey with
        | some k => (k, g)
        | none =>
          let p := g.nextTid now
          (strBytes p.1, p.2)
      let mstKey := mstPath collection rkp.1
      if (mstLookup mstKey entries).isSome then .error .storage
      else
        let recBlock := Block.raw (encVal record)
        let recCid := cidOfBlock recBlock
        let st1 := putBlock st did (cidToBytes recCid) recBlock
        let entries2 := mstInsert mstKey recCid entries
        let out := signAndStoreCommit st1 did key entries2 rootCid rkp.2 now
        .ok (out.1, out.2.1,
          { uri := atUri did collection rkp.1, cid := cidToBytes recCid,
            newRoot := out.2.2.1, newRev := out.2.2.2 })

/-- put_record (operations.rs): update the record when the MST key exists,
otherwise add it; then build a new signed commit. -/
def put_record (st : BlockStore) (did key collection rkey : Bytes)
    (record : Val) (g : TidGenerator) (now : Nat) (currentRoot : Bytes) :
    Except PdsErr (BlockStore × TidGenerator × RecordWriteOutput) :=
  match cidFromBytes currentRoot with
  | none => .error .storage
  | some rootCid =>
    match openRepo st did rootCid with
    | .error e => .error e
    | .ok (_, entries) =>
      let mstKey := mstPath collection rkey
      let recBlock := Block.raw (encVal record)
      let recCid := cidOfBlock recBlock
      let st1 := putBlock st did (cidToBytes recCid) recBlock
      let entries2 := mstInsert mstKey recCid entries
      let out := signAndStoreCommit st1 did key entries2 rootCid g now
      .ok (out.1, out.2.1,
        { uri := atUri did collection rkey, cid := cidToBytes recCid,
          newRoot := out.2.2.1, newRev := out.2.2.2 })

/-- delete_record (operations.rs): remove the MST entry (atrium delete_raw is
taken to fail when the key is absent) and build a new signed commit. -/
def delete_record (st : BlockStore) (did key collection rkey : Bytes)
    (g : TidGenerator) (now : Nat) (currentRoot : Bytes) :
    Except PdsErr (BlockStore × TidGenerator × Bytes × String) :=
  match cidFromBytes currentRoot with
  | none => .error .storage
  | some rootCid =>
    match openRepo st did rootCid with
    | .error e => .error e
    | .ok (_, entries) =>
      let mstKey := mstPath collection rkey
      if (mstLookup mstKey entries).isNone then .error .storage
      else
        let entries2 := mstRemove mstKey entries
        let out := signAndStoreCommit st did key entries2 rootCid g now
        .ok (out.1, out.2.1, out.2.2.1, out.2.2.2)

/-- Decode one DAG-CBOR value spanning a whole block (serde_ipld_dagcbor
from_reader).  The fuel 2*length+1 dominates the nesting depth of any
well-formed encoding (shown below). -/
def decValFull (b : Bytes) : Option (Val × Bytes) := decVal (2 * b.length + 1) b

/-- get_record (operations.rs): open the repo, look up the MST entry, read and
DAG-CBOR-decode the record block.  Returns none when the record is absent. -/
def get_record (st : BlockStore) (did collection rkey : Bytes)
    (currentRoot : Bytes) : Except PdsErr (Option RecordOutput) :=
  match cidFromBytes currentRoot with
  | none => .error .storage
  | some rootCid =>
    match openRepo st did rootCid with
    | .error e => .error e
    | .ok (_, entries) =>
      let mstKey := mstPath collection rkey
      match mstLookup mstKey entries with
      | none => .ok none
      | some recCid =>
        match getBlock st did (cidToBytes recCid) with
        | none => .error .storage
        | some blk =>
          let bs := blockBytes blk
          match decValFull bs with
          | some (v, []) =>
            .ok (some { uri := atUri did collection rkey,
                        cid := cidToBytes recCid, value := v })
          | _ => .error .storage

/-! ## CAR export (crates/dallaspds-repo/src/car.rs) -/

/-- A CAR v1 archive: declared roots and (cid bytes, block bytes) pairs.  The
varint framing of the byte stream is invertible, so the archive is modelled by
its contents. -/
structure CarFile where
  roots : List Bytes
  blocks : List (Bytes × Bytes)
deriving DecidableEq

/-- repo.export() (atrium-repo; spec section 4.4 `export`): all CIDs reachable
from the root: the commit, the MST node, the record leaves. -/
def exportCids (st : BlockStore) (did : Bytes) (root : Cid) :
    Except PdsErr (List Cid) :=
  match openRepo st did root with
  | .error e => .error e
  | .ok (c, es) => .ok (root :: c.data :: es.map (fun e => e.2))

/-- Read every listed block (the write loop of export_full_car /
generate_diff_car; a missing block fails the export). -/
def readBlocks (st : BlockStore) (did : Bytes) : List Cid →
    Except PdsErr (List (Bytes × Bytes))
  | [] => .ok []
  | c :: t =>
    match getBlock st did (cidToBytes c) with
    | none => .error .storage
    | some blk =>
      match readBlocks st did t with
      | .error e => .error e
      | .ok rest => .ok ((cidToBytes c, blockBytes blk) :: rest)

/-- export_full_car (car.rs): single declared root, all exported blocks. -/
def export_full_car (st : BlockStore) (did : Bytes) (currentRoot : Bytes) :
    Except PdsErr CarFile :=
  match cidFromBytes currentRoot with
  | none => .error .storage
  | some rootCid =>
    match exportCids st did rootCid with
    | .error e => .error e
    | .ok cids =>
      match readBlocks st did cids with
      | .error e => .error e
      | .ok blocks => .ok { roots := [cidToBytes rootCid], blocks := blocks }

/-- generate_diff_car (car.rs): with no since root this is export_full_car;
otherwise the declared root is the current root and the blocks are the set
difference of the two reachable CID sets (HashSet difference modelled by a
deduplicated filtered list). -/
def generate_diff_car (st : BlockStore) (did : Bytes) (currentRoot : Bytes)
    (sinceRoot : Option Bytes) : Except PdsErr CarFile :=
  match sinceRoot with
  | none => export_full_car st did currentRoot
  | some sb =>
    match cidFromBytes sb with
    | none => .error .storage
    | some sinceCid =>
      match cidFromBytes currentRoot with
      | none => .error .storage
      | some currentCid =>
        match exportCids st did currentCid with
        | .error e => .error e
        | .ok currentCids =>
          match exportCids st did sinceCid with
          | .error e => .error e
          | .ok previousCids =>
            let diffCids := currentCids.dedup.filter (fun c => c ∉ previousCids)
            match readBlocks st did diffCids with
            | .error e => .error e
            | .ok blocks => .ok { roots := [cidToBytes currentCid], blocks := blocks }

/-- The CID links a block holds: a commit links its MST root, an MST node
links its record CIDs. -/
def blockLinks : Block → List Cid
  | .raw _ => []
  | .node es => es.map (fun e => e.2)
  | .commit c => [c.data]

/-- Graph reachability over stored blocks, following CID links from a root
(the specification's reachable(root), section 4.5). -/
inductive Reaches (st : BlockStore) (did : Bytes) : Cid → Cid → Prop where
  | refl (c : Cid) : Reaches st did c c
  | step {a b c : Cid} {blk : Block} : Reaches st did a b →
      getBlock st did (cidToBytes b) = some blk → c ∈ blockLinks blk →
      Reaches st did a c

/-! ## Firehose events (server/src/firehose/events.rs) -/

/-- A repo operation inside a commit event. -/
structure RepoOp where
  action : String
  path : Bytes
  cid : Option Bytes
deriving DecidableEq

/-- A #commit event body. -/
structure CommitEvent where
  seq : Int
  tooBig : Bool
  repo : Bytes
  commit : Bytes
  prev : Option Bytes
  rev : String
  time : Bytes
  ops : List RepoOp
  blocks : CarFile
deriving DecidableEq

/-- A #identity event body. -/
structure IdentityEvent where
  seq : Int
  did : Bytes
  time : Bytes
  handle : Option Bytes
deriving DecidableEq

/-- A #account event body. -/
structure AccountEvent where
  seq : Int
  did : Bytes
  time : Bytes
  active : Bool
deriving DecidableEq

/-- Discriminated union of firehose event types. -/
inductive FirehoseEvent where
  | commitEv : CommitEvent → FirehoseEvent
  | identityEv : IdentityEvent → FirehoseEvent
  | accountEv : AccountEvent → FirehoseEvent
deriving DecidableEq

/-- FirehoseEvent::seq. -/
def FirehoseEvent.seq : FirehoseEvent → Int
  | .commitEv e => e.seq
  | .identityEv e => e.seq
  | .accountEv e => e.seq

/-- The (event_type, did) pair of emit_and_persist (emit.rs). -/
def FirehoseEvent.typeAndDid : FirehoseEvent → String × Bytes
  | .commitEv e => ("commit", e.repo)
  | .identityEv e => ("identity", e.did)
  | .accountEv e => ("account", e.did)

/-- Flattened ops for the wire encoding. -/
def flatRepoOps : List RepoOp → Bytes
  | [] => []
  | o :: t => lp (strBytes o.action) ++ lp o.path ++
      lp (match o.cid with | none => [] | some c => lp c) ++ flatRepoOps t

/-- Flattened CAR contents for the wire encoding. -/
def flatCar (car : CarFile) : Bytes :=
  (car.roots.map lp).flatten ++ (car.blocks.map (fun b => lp b.1 ++ lp b.2)).flatten

/-- wire::encode_event_frame (firehose/wire.rs): header plus DAG-CBOR body as
one binary message; modelled by an injective flattening of the event. -/
def encodeEventFrame : FirehoseEvent → Bytes
  | .commitEv e => 1 :: lp [e.seq.toNat] ++ lp e.repo ++ lp e.commit ++
      lp (match e.prev with | none => [] | some p => lp p) ++
      lp (strBytes e.rev) ++ lp e.time ++ lp (flatRepoOps e.ops) ++ flatCar e.blocks
  | .identityEv e => 2 :: lp [e.seq.toNat] ++ lp e.did ++ lp e.time
  | .accountEv e => 3 :: lp [e.seq.toNat] ++ lp e.did ++ lp e.time

/-! ## Server state (server/src/state.rs and the stores behind it) -/

/-- An account row (core/src/types.rs ActorAccount, fields used here). -/
structure ActorAccount where
  did : Bytes
  handle : Bytes
  email : Option Bytes
  passwordHash : Bytes
  signingKey : Bytes
deriving DecidableEq

/-- A repo_root row. -/
structure RepoRoot where
  did : Bytes
  cid : Bytes
  rev : String
deriving DecidableEq

/-- An invite_code row (fields used by createAccount). -/
structure InviteCode where
  code : Bytes
  availableUses : Int
  disabled : Bool
  uses : List Bytes
deriving DecidableEq

/-- A firehose_event row (seq INTEGER PRIMARY KEY AUTOINCREMENT). -/
structure PersistedEvent where
  seq : Int
  eventType : String
  did : Bytes
  payload : Bytes
deriving DecidableEq

/-- PdsMode (core/src/config.rs). -/
inductive PdsMode where
  | single
  | multi
deriving DecidableEq

/-- Configuration fields consulted by the modelled routes. -/
structure Config where
  mode : PdsMode
  availableUserDomains : List Bytes
  inviteRequired : Bool
deriving DecidableEq

/-- AppState: the stores, the sequencer counter, the event log, the broadcast
channel contents (in emission order) and the relay notifications.  The
Option-wrapped sequencer / event store / relay notifier of state.rs are the
three Bool flags. -/
structure AppState where
  config : Config
  accounts : List ActorAccount
  invites : List InviteCode
  refreshTokens : List (Bytes × Bytes)
  repoRoots : List RepoRoot
  repoStore : BlockStore
  hasSequencer : Bool
  hasEventStore : Bool
  hasRelay : Bool
  seqCounter : Int
  eventStore : List PersistedEvent
  broadcast : List FirehoseEvent
  relayNotified : List Bytes
deriving DecidableEq

/-- get_account_by_did. -/
def getAccountByDid (st : AppState) (did : Bytes) : Option ActorAccount :=
  st.accounts.find? (fun a => decide (a.did = did))

/-- get_repo_root. -/
def getRepoRoot (roots : List RepoRoot) (did : Bytes) : Option RepoRoot :=
  roots.find? (fun r => decide (r.did = did))

/-- update_repo_root: INSERT OR REPLACE keyed by did. -/
def updateRepoRoot (roots : List RepoRoot) (did : Bytes) (cid : Bytes)
    (rev : String) : List RepoRoot :=
  match getRepoRoot roots did with
  | some _ => roots.map (fun r => if r.did = did then { did := did, cid := cid, rev := rev } else r)
  | none => roots ++ [{ did := did, cid := cid, rev := rev }]

/-- SqliteEventStore::append_event (storage-sqlite/src/event.rs): plain INSERT;
the seq column is assigned by SQLite as rowid max + 1, dense from 1 for this
insert-only table; returns last_insert_rowid. -/
def appendEvent (log : List PersistedEvent) (eventType : String) (did : Bytes)
    (payload : Bytes) : List PersistedEvent × Int :=
  let seq : Int := Int.ofNat log.length + 1
  (log ++ [{ seq := seq, eventType := eventType, did := did, payload := payload }], seq)

/-- emit_and_persist (firehose/emit.rs): wire-encode and append to the event
store when configured (a storage failure is logged and swallowed), then
broadcast through the sequencer when configured.  `persistOk` injects the
store failure. -/
def emitAndPersist (st : AppState) (ev : FirehoseEvent) (persistOk : Bool) : AppState :=
  let st1 :=
    if st.hasEventStore then
      if persistOk then
        let td := ev.typeAndDid
        { st with eventStore := (appendEvent st.eventStore td.1 td.2 (encodeEventFrame ev)).1 }
      else st
    else st
  if st1.hasSequencer then { st1 with broadcast := st1.broadcast ++ [ev] } else st1

/-- Environment of one route invocation: the random clock id drawn by
TidGenerator::new, the microsecond clock, the RFC3339 timestamp, and whether
the event-store insert succeeds. -/
structure WriteEnv where
  clockRand : Nat
  now : Nat
  time : Bytes
  persistOk : Bool
deriving DecidableEq

/-- XrpcError (server/src/error.rs): status and error name. -/
structure XrpcErr where
  status : Nat
  name : String
deriving DecidableEq

/-- From<PdsError> for XrpcError (error.rs). -/
def pdsErrToXrpc : PdsErr → XrpcErr
  | .storage => ⟨500, "InternalServerError"⟩
  | .invalidRequest => ⟨400, "InvalidRequest"⟩
  | .accountNotFound => ⟨400, "AccountNotFound"⟩

/-- cid_bytes_to_string with unwrap_or_default (routes/repo.rs): display
string of the CID bytes, empty on malformed input. -/
def cidBytesToStringD (b : Bytes) : Bytes :=
  match cidFromBytes b with
  | some c => cidToString c
  | none => []

/-- generate_diff_car(...).unwrap_or_default(). -/
def diffCarD (st : BlockStore) (did : Bytes) (currentRoot : Bytes)
    (sinceRoot : Option Bytes) : CarFile :=
  match generate_diff_car st did currentRoot sinceRoot with
  | .ok car => car
  | .error _ => { roots := [], blocks := [] }

/-! ## Write routes (server/src/routes/repo.rs) -/

/-- createRecord request body. -/
structure CreateRecordRequest where
  repo : Bytes
  collection : Bytes
  rkey : Option Bytes
  record : Val
deriving DecidableEq

/-- putRecord request body. -/
structure PutRecordRequest where
  repo : Bytes
  collection : Bytes
  rkey : Bytes
  record : Val
deriving DecidableEq

/-- deleteRecord request body. -/
structure DeleteRecordRequest where
  repo : Bytes
  collection : Bytes
  rkey : Bytes
deriving DecidableEq

/-- Firehose emission tail shared by the three single-write routes
(repo.rs: allocate seq, build the commit event with the diff CAR, persist and
broadcast, then notify the relay). -/
def emitCommitTail (st : AppState) (did : Bytes) (newRoot prevRoot : Bytes)
    (rev : String) (ops : List RepoOp) (env : WriteEnv) : AppState :=
  if st.hasSequencer then
    let seq := st.seqCounter
    let st1 := { st with seqCounter := st.seqCounter + 1 }
    let diffCar := diffCarD st1.repoStore did newRoot (some prevRoot)
    let ev := FirehoseEvent.commitEv
      { seq := seq, tooBig := false, repo := did,
        commit := cidBytesToStringD newRoot,
        prev := some (cidBytesToStringD prevRoot),
        rev := rev, time := env.time, ops := ops, blocks := diffCar }
    let st2 := emitAndPersist st1 ev env.persistOk
    if st2.hasRelay then { st2 with relayNotified := st2.relayNotified ++ [did] } else st2
  else st

/-- createRecord route (repo.rs).  Returns the XRPC result and the state after
the call; error paths return before the root update and before any
firehose/relay work. -/
def createRecordRoute (st : AppState) (userDid : Bytes)
    (body : CreateRecordRequest) (env : WriteEnv) :
    Except XrpcErr (Bytes × Bytes) × AppState :=
  if body.repo ≠ userDid then (.error ⟨403, "AuthorizationError"⟩, st)
  else
    match getAccountByDid st userDid with
    | none => (.error (pdsErrToXrpc .accountNotFound), st)
    | some account =>
      match getRepoRoot st.repoRoots userDid with
      | none => (.error ⟨400, "RepoNotFound"⟩, st)
      | some repoRoot =>
        match create_record st.repoStore userDid account.signingKey
            body.collection body.rkey body.record
            (TidGenerator.mkNew env.clockRand) env.now repoRoot.cid with
        | .error e => (.error (pdsErrToXrpc e), st)
        | .ok (store2, _, output) =>
          let prevRoot := repoRoot.cid
          let st1 := { st with
            repoStore := store2
            repoRoots := updateRepoRoot st.repoRoots userDid output.newRoot output.newRev }
          let ops : List RepoOp := [{
            action := "create"
            path := mstPath body.collection (body.rkey.getD [])
            cid := some (cidBytesToStringD output.cid) }]
          let st2 := emitCommitTail st1 userDid output.newRoot prevRoot
            output.newRev ops env
          (.ok (output.uri, cidBytesToStringD output.cid), st2)

/-- putRecord route (repo.rs). -/
def putRecordRoute (st : AppState) (userDid : Bytes)
    (body : PutRecordRequest) (env : WriteEnv) :
    Except XrpcErr (Bytes × Bytes) × AppState :=
  if body.repo ≠ userDid then (.error ⟨403, "AuthorizationError"⟩, st)
  else
    match getAccountByDid st userDid with
    | none => (.error (pdsErrToXrpc .accountNotFound), st)
    | some account =>
      match getRepoRoot st.repoRoots userDid with
      | none => (.error ⟨400, "RepoNotFound"⟩, st)
      | some repoRoot =>
        match put_record st.repoStore userDid account.signingKey
            body.collection body.rkey body.record
            (TidGenerator.mkNew env.clockRand) env.now repoRoot.cid with
        | .error e => (.error (pdsErrToXrpc e), st)
        | .ok (store2, _, output) =>
          let prevRoot := repoRoot.cid
          let st1 := { st with
            repoStore := store2
            repoRoots := updateRepoRoot st.repoRoots userDid output.newRoot output.newRev }
          let ops : List RepoOp := [{
            action := "update"
            path := mstPath body.collection body.rkey
            cid := some (cidBytesToStringD output.cid) }]
          let st2 := emitCommitTail st1 userDid output.newRoot prevRoot
            output.newRev ops env
          (.ok (output.uri, cidBytesToStringD output.cid), st2)

/-- deleteRecord route (repo.rs). -/
def deleteRecordRoute (st : AppState) (userDid : Bytes)
    (body : DeleteRecordRequest) (env : WriteEnv) :
    Except XrpcErr Unit × AppState :=
  if body.repo ≠ userDid then (.error ⟨403, "AuthorizationError"⟩, st)
  else
    match getAccountByDid st userDid with
    | none => (.error (pdsErrToXrpc .accountNotFound), st)
    | some account =>
      match getRepoRoot st.repoRoots userDid with
      | none => (.error ⟨400, "RepoNotFound"⟩, st)
      | some repoRoot =>
        match delete_record st.repoStore userDid account.signingKey
            body.collection body.rkey
            (TidGenerator.mkNew env.clockRand) env.now repoRoot.cid with
        | .error e => (.error (pdsErrToXrpc e), st)
        | .ok (store2, _, newRoot, newRev) =>
          let prevRoot := repoRoot.cid
          let st1 := { st with
            repoStore := store2
            repoRoots := updateRepoRoot st.repoRoots userDid newRoot newRev }
          let ops : List RepoOp := [{
            action := "delete"
            path := mstPath body.collection body.rkey
            cid := none }]
          let st2 := emitCommitTail st1 userDid newRoot prevRoot newRev ops env
          (.ok (), st2)

/-- getRecord route (repo.rs): unauthenticated read. -/
def getRecordRoute (st : AppState) (params : Bytes × Bytes × Bytes) :
    Except XrpcErr (Bytes × Bytes × Val) :=
  match getRepoRoot st.repoRoots params.1 with
  | none => .error ⟨400, "RepoNotFound"⟩
  | some repoRoot =>
    match get_record st.repoStore params.1 params.2.1 params.2.2 repoRoot.cid with
    | .error e => .error (pdsErrToXrpc e)
    | .ok none => .error ⟨400, "RecordNotFound"⟩
    | .ok (some record) => .ok (record.uri, cidBytesToStringD record.cid, record.value)

/-! ## applyWrites (repo.rs) -/

/-- One applyWrites operation. -/
inductive ApplyWriteOp where
  | create : Bytes → Option Bytes → Val → ApplyWriteOp
  | update : Bytes → Bytes → Val → ApplyWriteOp
  | delete : Bytes → Bytes → ApplyWriteOp
deriving DecidableEq

/-- applyWrites request body. -/
structure ApplyWritesRequest where
  repo : Bytes
  writes : List ApplyWriteOp
  swapCommit : Option Bytes
deriving DecidableEq

/-- The batch loop of apply_writes: thread the block store, the running root
and the TID generator through the writes, accumulating firehose ops and
results.  A failing write aborts the batch (later writes, the root update and
the event are skipped; blocks already written stay). -/
def applyWritesLoop (store : BlockStore) (did key : Bytes) (g : TidGenerator)
    (now : Nat) (runningRoot : Bytes) :
    List ApplyWriteOp →
    Except (XrpcErr × BlockStore) (BlockStore × TidGenerator × Bytes × List RepoOp × List (Bytes × Bytes))
  | [] => .ok (store, g, runningRoot, [], [])
  | w :: rest =>
    match w with
    | .create collection rkey value =>
      match create_record store did key collection rkey value g now runningRoot with
      | .error e => .error (pdsErrToXrpc e, store)
      | .ok (store2, g2, output) =>
        let rkeyActual := (output.uri.reverse.takeWhile (fun b => b ≠ 47)).reverse
        let op : RepoOp := {
          action := "create"
          path := mstPath collection rkeyActual
          cid := some (cidBytesToStringD output.cid) }
        match applyWritesLoop store2 did key g2 now output.newRoot rest with
        | .error e => .error e
        | .ok (store3, g3, root3, ops, results) =>
          .ok (store3, g3, root3, op :: ops, (output.uri, cidBytesToStringD output.cid) :: results)
    | .update collection rkey value =>
      match put_record store did key collection rkey value g now runningRoot with
      | .error e => .error (pdsErrToXrpc e, store)
      | .ok (store2, g2, output) =>
        let op : RepoOp := {
          action := "update"
          path := mstPath collection rkey
          cid := some (cidBytesToStringD output.cid) }
        match applyWritesLoop store2 did key g2 now output.newRoot rest with
        | .error e => .error e
        | .ok (store3, g3, root3, ops, results) =>
          .ok (store3, g3, root3, op :: ops, (output.uri, cidBytesToStringD output.cid) :: results)
    | .delete collection rkey =>
      match delete_record store did key collection rkey g now runningRoot with
      | .error e => .error (pdsErrToXrpc e, store)
      | .ok (store2, g2, newRoot, _) =>
        let op : RepoOp := {
          action := "delete"
          path := mstPath collection rkey
          cid := none }
        match applyWritesLoop store2 did key g2 now newRoot rest with
        | .error e => .error e
        | .ok (store3, g3, root3, ops, results) =>
          .ok (store3, g3, root3, op :: ops, results)

/-- applyWrites route (repo.rs): auth, account, root, swap_commit validation
against the current root CID string, the batch loop, one root update with a
freshly drawn final rev, then a single commit event carrying all ops. -/
def applyWritesRoute (st : AppState) (userDid : Bytes)
    (body : ApplyWritesRequest) (env : WriteEnv) :
    Except XrpcErr (List (Bytes × Bytes)) × AppState :=
  if body.repo ≠ userDid then (.error ⟨403, "AuthorizationError"⟩, st)
  else
    match getAccountByDid st userDid with
    | none => (.error (pdsErrToXrpc .accountNotFound), st)
    | some account =>
      match getRepoRoot st.repoRoots userDid with
      | none => (.error ⟨400, "RepoNotFound"⟩, st)
      | some repoRoot =>
        let swapCheck : Except XrpcErr Unit :=
          match body.swapCommit with
          | none => .ok ()
          | some s =>
            match cidFromBytes repoRoot.cid with
            | none => .error ⟨500, "InternalServerError"⟩
            | some c => if s ≠ cidToString c then .error ⟨400, "InvalidSwap"⟩ else .ok ()
        match swapCheck with
        | .error e => (.error e, st)
        | .ok () =>
          let tidGen := TidGenerator.mkNew env.clockRand
          let prevRoot := repoRoot.cid
          match applyWritesLoop st.repoStore userDid account.signingKey tidGen
              env.now repoRoot.cid body.writes with
          | .error (e, store2) => (.error e, { st with repoStore := store2 })
          | .ok (store2, g2, runningRoot, ops, results) =>
            let finalRevP := g2.nextTid env.now
            let st1 := { st with
              repoStore := store2
              repoRoots := updateRepoRoot st.repoRoots userDid runningRoot finalRevP.1 }
            let st2 := emitCommitTail st1 userDid runningRoot prevRoot
              finalRevP.1 ops env
            (.ok results, st2)

/-! ## createAccount (server/src/routes/server.rs) -/

/-- createAccount request body. -/
structure CreateAccountRequest where
  handle : Bytes
  email : Option Bytes
  password : Bytes
  inviteCode : Option Bytes
deriving DecidableEq

/-- Environment of a createAccount call: the generated P-256 private key, the
random clock id and microsecond clock for the initial commit rev, and the
refresh-token JTI. -/
structure CreateAccountEnv where
  signingKey : Bytes
  clockRand : Nat
  now : Nat
  jti : Bytes
deriving DecidableEq

/-- create_did_plc_operation (crypto/did.rs; spec section 6 did:plc genesis):
did:plc: followed by a hash of the signed genesis op.  The hash is modelled by
an injective function of the key and handle that determine the op. -/
def mkDidPlc (key handle : Bytes) : Bytes :=
  strBytes "did:plc:" ++ lp key ++ handle

/-- hash_password (crypto/password.rs), modelled as an injective function. -/
def hashPassword (pw : Bytes) : Bytes := strBytes "argon2:" ++ pw

/-- SqliteAccountStore::create_account (storage-sqlite/src/account.rs): insert
actor + account rows (unique did / handle) and a repo_root row with EMPTY cid
and rev, in one transaction. -/
def storeCreateAccount (st : AppState) (did handle : Bytes) (email : Option Bytes)
    (passwordHash signingKey : Bytes) : Except PdsErr AppState :=
  if (st.accounts.find? (fun a => decide (a.did = did ∨ a.handle = handle))).isSome then
    .error .storage
  else
    .ok { st with
      accounts := st.accounts ++
        [{ did := did, handle := handle, email := email,
           passwordHash := passwordHash, signingKey := signingKey }]
      repoRoots := st.repoRoots ++ [{ did := did, cid := [], rev := "" }] }

/-- use_invite_code: record one use. -/
def useInviteCode (invs : List InviteCode) (code did : Bytes) : List InviteCode :=
  invs.map (fun i => if i.code = code then { i with uses := i.uses ++ [did] } else i)

/-- Invite-code validation of createAccount (server.rs): required mode,
existence, disabled flag, remaining uses. -/
def inviteCheckF (st : AppState) (code : Option Bytes) : Except XrpcErr Unit :=
  if st.config.inviteRequired then
    match code with
    | none => .error ⟨400, "InvalidInviteCode"⟩
    | some c =>
      match st.invites.find? (fun i => decide (i.code = c)) with
      | none => .error ⟨400, "InvalidInviteCode"⟩
      | some invite =>
        if invite.disabled then .error ⟨400, "InvalidInviteCode"⟩
        else if Int.ofNat invite.uses.length ≥ invite.availableUses then
          .error ⟨400, "InvalidInviteCode"⟩
        else .ok ()
  else .ok ()

/-- Record one invite use after a successful account insert (server.rs). -/
def recordInviteUse (st : AppState) (code : Option Bytes) (did : Bytes) : AppState :=
  if st.config.inviteRequired then
    match code with
    | some c => { st with invites := useInviteCode st.invites c did }
    | none => st
  else st

/-- createAccount route (server.rs): single-user-mode check, handle-domain
validation, invite-code validation, key generation, did:plc genesis (the PLC
directory POST is fire-and-forget), password hash, account insert (which also
writes the empty repo_root row), invite-use record, repository initialization,
root update, token issuance. -/
def createAccountRoute (st : AppState) (body : CreateAccountRequest)
    (env : CreateAccountEnv) : Except XrpcErr Bytes × AppState :=
  if st.config.mode = PdsMode.single ∧ st.accounts ≠ [] then
    (.error ⟨400, "AccountLimitReached"⟩, st)
  else if ¬ st.config.availableUserDomains.any (fun d => d.isSuffixOf body.handle) then
    (.error ⟨400, "InvalidHandle"⟩, st)
  else
    match inviteCheckF st body.inviteCode with
    | .error e => (.error e, st)
    | .ok () =>
      let did := mkDidPlc env.signingKey body.handle
      let passwordHash := hashPassword body.password
      match storeCreateAccount st did body.handle body.email passwordHash env.signingKey with
      | .error e => (.error (pdsErrToXrpc e), st)
      | .ok st1 =>
        let st2 := recordInviteUse st1 body.inviteCode did
        let g := TidGenerator.mkNew env.clockRand
        let rp := createRepo st2.repoStore did env.signingKey g env.now
        let st3 := { st2 with
          repoStore := rp.1
          repoRoots := updateRepoRoot st2.repoRoots did rp.2.1 rp.2.2 }
        let st4 := { st3 with refreshTokens := st3.refreshTokens ++ [(env.jti, did)] }
        (.ok did, st4)

/-! ## Firehose subscription (server/src/firehose/stream.rs) -/

/-- SqliteEventStore::get_events_after: WHERE seq > after ORDER BY seq ASC
LIMIT limit (the log is kept in ascending seq order). -/
def getEventsAfter (log : List PersistedEvent) (after : Int) (limit : Nat) :
    List PersistedEvent :=
  (log.filter (fun e => decide (after < e.seq))).take limit

/-- One binary frame sent to a subscriber: an error frame, an info frame, a
raw persisted payload (tagged with its stored seq), or a freshly encoded live
event. -/
inductive SentFrame where
  | errorFrame : String → SentFrame
  | infoFrame : String → SentFrame
  | replayed : Int → Bytes → SentFrame
  | live : Int → Bytes → SentFrame
deriving DecidableEq

/-- The replay loop of handle_subscribe: read a batch of 100 events after the
replay cursor, send them, advance the cursor to the last sent seq, repeat
until a batch comes back empty.  The Rust loop is unbounded; the fuel is an
upper bound on its iteration count, shown sufficient below. -/
def replayLoop (log : List PersistedEvent) : Nat → Int → List PersistedEvent
  | 0, _ => []
  | fuel + 1, cursor =>
    match (getEventsAfter log cursor 100).getLast? with
    | none => []
    | some lastEv => getEventsAfter log cursor 100 ++ replayLoop log fuel lastEv.seq

/-- The live phase of handle_subscribe: stream broadcast events in order,
skipping any with seq at most the last sent seq. -/
def liveLoop (lastSent : Int) : List FirehoseEvent → List SentFrame
  | [] => []
  | ev :: rest =>
    if ev.seq ≤ lastSent then liveLoop lastSent rest
    else .live ev.seq (encodeEventFrame ev) :: liveLoop ev.seq rest

/-- handle_subscribe (stream.rs): cursor validation, subscription to the live
broadcast BEFORE replay (`live` is the list of events broadcast from the
subscription point on, in order), OutdatedCursor info frame, batched replay
from the event store, then the live stream with boundary deduplication. -/
def handleSubscribe (st : AppState) (live : List FirehoseEvent)
    (cursor : Option Int) : List SentFrame :=
  if ¬ st.hasSequencer then [.errorFrame "FutureCursor"]
  else
    match cursor with
    | none => liveLoop 0 live
    | some c =>
      if c > st.seqCounter then [.errorFrame "FutureCursor"]
      else if st.hasEventStore ∧ c < st.seqCounter then
        SentFrame.infoFrame "OutdatedCursor" ::
          (replayLoop st.eventStore (st.eventStore.length + 1) c).map
            (fun e => SentFrame.replayed e.seq e.payload) ++
          liveLoop (((replayLoop st.eventStore (st.eventStore.length + 1) c).getLast?).elim
            c (fun e => e.seq)) live
      else liveLoop c live

/-! ## Sequencer allocation and emission traces (sequencer.rs + emit.rs) -/

/-- Set the seq field of an event (the routes build the event around the seq
they drew from the sequencer). -/
def FirehoseEvent.withSeq : FirehoseEvent → Int → FirehoseEvent
  | .commitEv e, s => .commitEv { e with seq := s }
  | .identityEv e, s => .identityEv { e with seq := s }
  | .accountEv e, s => .accountEv { e with seq := s }

/-- Run a sequence of emissions: each draws `seq := sequencer.next_seq()`
(fetch-and-increment), builds the event with that seq and runs
emit_and_persist; the Bool injects event-store insert failure.  Returns the
final state and the assigned seqs in order. -/
def runEmits (st : AppState) : List (FirehoseEvent × Bool) → AppState × List Int
  | [] => (st, [])
  | (ev, ok) :: rest =>
    let s := st.seqCounter
    let st1 := { st with seqCounter := s + 1 }
    let st2 := emitAndPersist st1 (ev.withSeq s) ok
    let res := runEmits st2 rest
    (res.1, s :: res.2)

/-- The stored seq column values are dense and gap-free from 1. -/
def denseFrom1 (log : List PersistedEvent) : Prop :=
  log.map (fun e => e.seq) = (List.range log.length).map (fun i => Int.ofNat i + 1)

/-- Extract a CommitData from the decoded DAG-CBOR map of a commit block. -/
def commitOfVal : Val → Option CommitData
  | .vmap (.cons k1 (.vbytes db)
      (.cons k2 (.vtext did)
        (.cons k3 pv
          (.cons k4 (.vtext rev)
            (.cons k5 (.vbytes sig)
              (.cons k6 (.vint ver) .nil)))))) =>
    if k1 = keyData ∧ k2 = keyDid ∧ k3 = keyPrev ∧ k4 = keyRev ∧ k5 = keySig ∧
        k6 = keyVersion ∧ 0 ≤ ver then
      match cidFromBytes db with
      | none => none
      | some dataCid =>
        match pv with
        | .vnull => some {
            did := did
            version := ver.toNat
            data := dataCid
            rev := rev
            prev := none
            sig := sig }
        | .vbytes pb =>
          match cidFromBytes pb with
          | none => none
          | some p => some {
              did := did
              version := ver.toNat
              data := dataCid
              rev := rev
              prev := some p
              sig := sig }
        | _ => none
    else none
  | _ => none

/-- Decode a commit block: one DAG-CBOR value spanning the whole block, then
field extraction (Repository::open's view of the commit). -/
def decCommit (b : Bytes) : Option CommitData :=
  match decValFull b with
  | some (v, []) => commitOfVal v
  | _ => none

/-- Representability of a commit's DAG-CBOR map. -/
def commitWfB (c : CommitData) : Bool := wfVal (.vmap (commitEntries c))

/-! ### Block store lemmas -/

/-- Every stored pair is keyed by the content CID of its block (all writers go
through compute_cid). -/
def StoreInv (st : BlockStore) : Prop :=
  ∀ e ∈ st.blocks, e.1.2 = cidToBytes (cidOfBlock e.2)

/-! ## Claim C3

Every write route constructs a fresh TidGenerator (repo.rs lines 93, 313, 413,
672), so commit revs are monotone only per request.  Two requests that land in
the same microsecond with a smaller random clock id in the second produce a
second commit whose rev is lexicographically SMALLER.  The concrete run below
creates an account, then issues two putRecord requests at the same
microsecond clock with clock ids 5 then 3. -/

def c3Config : Config :=
  { mode := .multi, availableUserDomains := [strBytes ".test"], inviteRequired := false }

def c3State0 : AppState :=
  { config := c3Config, accounts := [], invites := [], refreshTokens := []
    repoRoots := [], repoStore := ⟨[]⟩, hasSequencer := false
    hasEventStore := false, hasRelay := false, seqCounter := 1
    eventStore := [], broadcast := [], relayNotified := [] }

def c3Did : Bytes := mkDidPlc [1, 2, 3] (strBytes "alice.test")

def c3St1 : AppState :=
  (createAccountRoute c3State0
    { handle := strBytes "alice.test", email := none,
      password := strBytes "pw", inviteCode := none }
    { signingKey := [1, 2, 3], clockRand := 0, now := 999999, jti := [9] }).2

def c3Body1 : PutRecordRequest :=
  { repo := c3Did, collection := strBytes "app.bsky.actor.profile",
    rkey := strBytes "self", record := .vnull }

def c3Env1 : WriteEnv := { clockRand := 5, now := 1000000, time := [], persistOk := true }

def c3Body2 : PutRecordRequest :=
  { repo := c3Did, collection := strBytes "app.bsky.actor.profile",
    rkey := strBytes "self", record := .vbool true }

def c3Env2 : WriteEnv := { clockRand := 3, now := 1000000, time := [], persistOk := true }

def c3St2 : AppState := (putRecordRoute c3St1 c3Did c3Body1 c3Env1).2

def c3St3 : AppState := (putRecordRoute c3St2 c3Did c3Body2 c3Env2).2

/-- The rev stored with the current repo root. -/
def revAt (st : AppState) (did : Bytes) : String :=
  ((getRepoRoot st.repoRoots did).map (fun r => r.rev)).getD ""

/-! ## Claim C7

emit_and_persist lets SQLite assign the stored seq column (rowid), while the
sequencer-assigned seq only lives inside the payload.  A single persistence
failure therefore shifts every later stored seq below its assigned value. -/

def c7State0 : AppState :=
  { config := { mode := .multi, availableUserDomains := [], inviteRequired := false }
    accounts := [], invites := [], refreshTokens := []
    repoRoots := [], repoStore := ⟨[]⟩, hasSequencer := true
    hasEventStore := true, hasRelay := false, seqCounter := 1
    eventStore := [], broadcast := [], relayNotified := [] }

def c7Ev : FirehoseEvent := .identityEv { seq := 0, did := [100], time := [], handle := none }

def c8Acct : ActorAccount :=
  { did := [1], handle := [2], email := none, passwordHash := [3], signingKey := [4] }

def c8Root : RepoRoot := { did := [1], cid := [1, 113, 9], rev := "" }

def c8State : AppState :=
  { config := { mode := .multi, availableUserDomains := [], inviteRequired := false }
    accounts := [c8Acct], invites := [], refreshTokens := []
    repoRoots := [c8Root], repoStore := ⟨[]⟩, hasSequencer := false
    hasEventStore := false, hasRelay := false, seqCounter := 1
    eventStore := [], broadcast := [], relayNotified := [] }

def c8Body : ApplyWritesRequest := { repo := [1], writes := [], swapCommit := some [0] }

def c8Env : WriteEnv := { clockRand := 0, now := 0, time := [], persistOk := true }

/-! ## Claim C4 -/

/-- One write request of the single-write routes. -/
inductive WriteReq where
  | createW : CreateRecordRequest → WriteReq
  | putW : PutRecordRequest → WriteReq
  | deleteW : DeleteRecordRequest → WriteReq

/-- State after one route invocation (result dropped). -/
def runWrite (st : AppState) (userDid : Bytes) (w : WriteReq) (env : WriteEnv) :
    AppState :=
  match w with
  | .createW b => (createRecordRoute st userDid b env).2
  | .putW b => (putRecordRoute st userDid b env).2
  | .deleteW b => (deleteRecordRoute st userDid b env).2

/-- State after a sequence of route invocations on one DID. -/
def runWrites (st : AppState) (userDid : Bytes) :
    List (WriteReq × WriteEnv) → AppState
  | [] => st
  | (w, env) :: t => runWrites (runWrite st userDid w env) userDid t

/-- The commit events of a broadcast list, in emission order. -/
def commitEvs (l : List FirehoseEvent) : List CommitEvent :=
  l.filterMap (fun e => match e with
    | .commitEv c => some c
    | .identityEv _ => none
    | .accountEv _ => none)

/-- Invariant tying the broadcast channel to the sequencer counter and the
repo root: every emitted event's seq is below the counter, the commit events
chain (seq strictly increases, each prev is the previous commit's CID), and
when a sequencer is configured the last commit event's CID renders the
current repo root. -/
def C4Inv (st : AppState) (did : Bytes) : Prop :=
  (∀ e ∈ st.broadcast, FirehoseEvent.seq e < st.seqCounter) ∧
  List.Chain' (fun c1 c2 => c1.seq < c2.seq ∧ c2.prev = some c1.commit)
    (commitEvs st.broadcast) ∧
  (st.hasSequencer = true →
    ∀ c ∈ (commitEvs st.broadcast).getLast?, ∀ r ∈ getRepoRoot st.repoRoots did,
      c.commit = cidBytesToStringD r.cid)

/-- A freshly initialized repository (store, root CID bytes, rev) for the C4
witness run. -/
def c4Init : BlockStore × Bytes × String :=
  createRepo ⟨[]⟩ [1] [4] (TidGenerator.mkNew 5) 1000000

/-- Initial state for the C4 witness run: one account whose repo root points
at the freshly created repository, no events emitted yet. -/
def c4State : AppState :=
  { config := { mode := .single, availableUserDomains := [], inviteRequired := false }
    accounts := [{ did := [1], handle := [2], email := none,
                   passwordHash := [3], signingKey := [4] }]
    invites := []
    refreshTokens := []
    repoRoots := [{ did := [1], cid := c4Init.2.1, rev := "a" }]
    repoStore := c4Init.1
    hasSequencer := true
    hasEventStore := true
    hasRelay := false
    seqCounter := 1
    eventStore := []
    broadcast := []
    relayNotified := [] }

/-- Two writes for the C4 witness: a create then a delete at one path. -/
def c4Reqs : List (WriteReq × WriteEnv) :=
  [(.createW { repo := [1], collection := [5], rkey := some [6], record := .vint 7 },
    { clockRand := 5, now := 1000000, time := [9], persistOk := true }),
   (.deleteW { repo := [1], collection := [5], rkey := [6] },
    { clockRand := 6, now := 2000000, time := [10], persistOk := true })]

/-! ## Claim C6 -/

/-- A repository laid out as the code stores it: the root is a commit block,
its data CID is an MST node block, and every record the node lists is a raw
block. -/
def GoodRepo (st : BlockStore) (did : Bytes) (root : Cid) : Prop :=
  ∃ c es, getBlock st did (cidToBytes root) = some (.commit c) ∧
    getBlock st did (cidToBytes c.data) = some (.node es) ∧
    ∀ e ∈ es, ∃ bs, getBlock st did (cidToBytes (e.2 : Cid)) = some (Block.raw bs)

/-- The empty repository of the C6 witness: one MST node with no entries and
one signed commit over it. -/
def c6CommitData : CommitData :=
  { did := [1], version := 3, data := cidOfBlock (Block.node []),
    rev := strBytes "a", prev := none, sig := [2] }

/-- Root CID of the C6 witness repository. -/
def c6RootCid : Cid := cidOfBlock (Block.commit c6CommitData)

/-- Block store of the C6 witness repository. -/
def c6Store : BlockStore :=
  putBlock (putBlock ⟨[]⟩ [1] (cidToBytes (cidOfBlock (Block.node []))) (Block.node []))
    [1] (cidToBytes c6RootCid) (Block.commit c6CommitData)

/-! ## Claim C2 -/

/-- The unsigned initial commit of create_repo over the empty MST node. -/
def initUnsigned (did rev : Bytes) : CommitData :=
  { did := did
    version := 3
    data := cidOfBlock (Block.node [])
    rev := rev
    prev := none
    sig := [] }

/-- The signed initial commit of create_repo. -/
def initCommit (did key rev : Bytes) : CommitData :=
  { initUnsigned did rev with
    sig := mkSig key (encCommitNoSig (initUnsigned did rev)) }

/-- Initial state for the C2 witness: empty single-mode PDS accepting the
handle domain. -/
def c2State : AppState :=
  { config := { mode := .single, availableUserDomains := [[2]], inviteRequired := false }
    accounts := []
    invites := []
    refreshTokens := []
    repoRoots := []
    repoStore := ⟨[]⟩
    hasSequencer := false
    hasEventStore := false
    hasRelay := false
    seqCounter := 1
    eventStore := []
    broadcast := []
    relayNotified := [] }

/-- Request body for the C2 witness. -/
def c2Body : CreateAccountRequest :=
  { handle := [2], email := none, password := [3], inviteCode := none }

/-- Environment for the C2 witness. -/
def c2Env : CreateAccountEnv :=
  { signingKey := [4], clockRand := 5, now := 1000000, jti := [9] }

/-! ## Claim C5 -/

/-- The seq after which the live phase starts: the last replayed seq, or the
cursor when nothing was replayed. -/
def replayLast (log : List PersistedEvent) (c : Int) : Int :=
  ((log.filter (fun p => decide (c < p.seq))).getLast?).elim c (fun p => p.seq)

/-- State for the C5 witness: two persisted events, sequencer counter 3. -/
def c5State : AppState :=
  { config := { mode := .single, availableUserDomains := [], inviteRequired := false }
    accounts := []
    invites := []
    refreshTokens := []
    repoRoots := []
    repoStore := ⟨[]⟩
    hasSequencer := true
    hasEventStore := true
    hasRelay := false
    seqCounter := 3
    eventStore := [{ seq := 1, eventType := "commit", did := [1], payload := [7] },
                   { seq := 2, eventType := "commit", did := [1], payload := [8] }]
    broadcast := []
    relayNotified := [] }

/-- A live event with seq 2 (also persisted) for the C5 witness. -/
def c5Live : List FirehoseEvent :=
  [.identityEv { seq := 2, did := [1], time := [3], handle := none }]

/-! ## Claim C1 -/

/-- The unsigned commit built by sign_and_store for new MST entries. -/
def opUnsigned (did rev : Bytes) (entries : List (Bytes × Cid)) (rootCid : Cid) :
    CommitData :=
  { did := did
    version := 3
    data := cidOfBlock (Block.node entries)
    rev := rev
    prev := some rootCid
    sig := [] }

/-- The signed commit built by sign_and_store. -/
def opCommit (did key rev : Bytes) (entries : List (Bytes × Cid)) (rootCid : Cid) :
    CommitData :=
  { opUnsigned did rev entries rootCid with
    sig := mkSig key (encCommitNoSig (opUnsigned did rev entries rootCid)) }

/-- The record R is stored at (collection, rkey) of the repository rooted at
`root`: the root block is a commit, its MST node maps the path to the record's
content CID, and that block holds the DAG-CBOR bytes of R. -/
def recordAt (st : BlockStore) (did root collection rkey : Bytes) (R : Val)
    (recCidB : Bytes) : Prop :=
  recCidB = cidToBytes (cidOfBlock (Block.raw (encVal R))) ∧
  ∃ rootCid c entries,
    cidFromBytes root = some rootCid ∧
    getBlock st did (cidToBytes rootCid) = some (.commit c) ∧
    getBlock st did (cidToBytes c.data) = some (.node entries) ∧
    mstLookup (mstPath collection rkey) entries =
      some (cidOfBlock (Block.raw (encVal R))) ∧
    getBlock st did recCidB = some (Block.raw (encVal R))

/-- One repository write at an explicit path, as issued by the routes. -/
inductive RepoWrite where
  | createR : Bytes → Bytes → Val → RepoWrite
  | putR : Bytes → Bytes → Val → RepoWrite
  | deleteR : Bytes → Bytes → RepoWrite

/-- The MST path a write touches. -/
def writePath : RepoWrite → Bytes
  | .createR c k _ => mstPath c k
  | .putR c k _ => mstPath c k
  | .deleteR c k => mstPath c k

/-- Run one write against the store, returning the new store and root. -/
def runRepoWrite (st : BlockStore) (did key : Bytes) (g : TidGenerator) (now : Nat)
    (root : Bytes) : RepoWrite → Except PdsErr (BlockStore × Bytes)
  | .createR c k v =>
    match create_record st did key c (some k) v g now root with
    | .error e => .error e
    | .ok r => .ok (r.1, r.2.2.newRoot)
  | .putR c k v =>
    match put_record st did key c k v g now root with
    | .error e => .error e
    | .ok r => .ok (r.1, r.2.2.newRoot)
  | .deleteR c k =>
    match delete_record st did key c k g now root with
    | .error e => .error e
    | .ok r => .ok (r.1, r.2.2.1)

/-- Run a sequence of writes, threading store and root. -/
def runRepoWrites (did key : Bytes) (g : TidGenerator) (now : Nat) :
    BlockStore → Bytes → List RepoWrite → Except PdsErr (BlockStore × Bytes)
  | st, root, [] => .ok (st, root)
  | st, root, w :: t =>
    match runRepoWrite st did key g now root w with
    | .error e => .error e
    | .ok (st2, root2) => runRepoWrites did key g now st2 root2 t

/-- Initial repository for the C1 witness. -/
def c1Init : BlockStore × Bytes × String :=
  createRepo ⟨[]⟩ [1] [4] (TidGenerator.mkNew 5) 1000000

/-- The concrete putRecord result for the C1 witness. -/
def c1Res : BlockStore × TidGenerator × RecordWriteOutput :=
  match put_record c1Init.1 [1] [4] [5] [6] (.vint 7) (TidGenerator.mkNew 3) 2000000
      c1Init.2.1 with
  | .ok r => r
  | .error _ => (⟨[]⟩, TidGenerator.mkNew 0,
      { uri := [], cid := [], newRoot := [], newRev := "" })

/-! ## Theorems -/

theorem natBE_length (k v : Nat) : (natBE k v).length = k := by
  induction k generalizing v with
  | zero => simp [natBE]
  | succ k ih => simp [natBE, ih]

theorem beVal_natBE (k v : Nat) (h : v < 256 ^ k) : beVal (natBE k v) = v := by
  induction k generalizing v with
  | zero =>
    have : v = 0 := by simpa using h
    simp [natBE, beVal, this]
  | succ k ih =>
    have hq : v / 256 < 256 ^ k := by
      rw [Nat.div_lt_iff_lt_mul (by norm_num)]
      calc v < 256 ^ (k + 1) := h
      _ = 256 ^ k * 256 := by ring
    simp only [natBE, beVal, List.foldl_append]
    have := ih (v / 256) hq
    simp only [beVal] at this
    simp [this, List.foldl]
    omega

theorem decHead_encHead (major n : Nat) (r : Bytes) (hm : major < 8)
    (hn : n < 2 ^ 64) : decHead (encHead major n ++ r) = some (major, n, r) := by
  have h32 : (0:Nat) < 32 := by norm_num
  unfold encHead
  split_ifs with h1 h2 h3 h4
  · simp only [List.cons_append, decHead]
    have hdiv : (32 * major + n) / 32 = major := by
      rw [Nat.mul_add_div h32]
      omega
    have hmod : (32 * major + n) % 32 = n := by
      rw [Nat.mul_add_mod]
      omega
    simp [hdiv, hmod, h1]
  · simp only [List.cons_append, decHead]
    have hdiv : (32 * major + 24) / 32 = major := by
      rw [Nat.mul_add_div h32]
      omega
    have hmod : (32 * major + 24) % 32 = 24 := by
      rw [Nat.mul_add_mod]
    simp [hdiv, hmod]
  · simp only [List.cons_append, decHead]
    have hdiv : (32 * major + 25) / 32 = major := by
      rw [Nat.mul_add_div h32]
      omega
    have hmod : (32 * major + 25) % 32 = 25 := by
      rw [Nat.mul_add_mod]
    have hlen : (natBE 2 n).length = 2 := natBE_length 2 n
    have htk : (natBE 2 n ++ r).take 2 = natBE 2 n := by
      have h := List.take_left (natBE 2 n) r
      rwa [hlen] at h
    have hdr : (natBE 2 n ++ r).drop 2 = r := by
      have h := List.drop_left (natBE 2 n) r
      rwa [hlen] at h
    have hbe : beVal (natBE 2 n) = n := beVal_natBE 2 n (by norm_num; omega)
    simp [hdiv, hmod, htk, hdr, hbe, List.length_append, hlen]
  · simp only [List.cons_append, decHead]
    have hdiv : (32 * major + 26) / 32 = major := by
      rw [Nat.mul_add_div h32]
      omega
    have hmod : (32 * major + 26) % 32 = 26 := by
      rw [Nat.mul_add_mod]
    have hlen : (natBE 4 n).length = 4 := natBE_length 4 n
    have htk : (natBE 4 n ++ r).take 4 = natBE 4 n := by
      have h := List.take_left (natBE 4 n) r
      rwa [hlen] at h
    have hdr : (natBE 4 n ++ r).drop 4 = r := by
      have h := List.drop_left (natBE 4 n) r
      rwa [hlen] at h
    have hbe : beVal (natBE 4 n) = n := beVal_natBE 4 n (by norm_num; omega)
    simp [hdiv, hmod, htk, hdr, hbe, List.length_append, hlen]
  · simp only [List.cons_append, decHead]
    have hdiv : (32 * major + 27) / 32 = major := by
      rw [Nat.mul_add_div h32]
      omega
    have hmod : (32 * major + 27) % 32 = 27 := by
      rw [Nat.mul_add_mod]
    have hlen : (natBE 8 n).length = 8 := natBE_length 8 n
    have htk : (natBE 8 n ++ r).take 8 = natBE 8 n := by
      have h := List.take_left (natBE 8 n) r
      rwa [hlen] at h
    have hdr : (natBE 8 n ++ r).drop 8 = r := by
      have h := List.drop_left (natBE 8 n) r
      rwa [hlen] at h
    have hbe : beVal (natBE 8 n) = n := beVal_natBE 8 n (by norm_num at hn ⊢; omega)
    simp [hdiv, hmod, htk, hdr, hbe, List.length_append, hlen]

theorem take_append_left (l r : Bytes) : (l ++ r).take l.length = l := by
  simpa using List.take_left l r

theorem drop_append_left (l r : Bytes) : (l ++ r).drop l.length = r := by
  simpa using List.drop_left l r

set_option maxHeartbeats 2000000 in
mutual
theorem decVal_encVal (v : Val) : ∀ (fuel : Nat) (r : Bytes), sizeVal v ≤ fuel →
    wfVal v = true → decVal fuel (encVal v ++ r) = some (v, r) := by
  cases v with
  | vnull =>
    intro fuel r hs _
    cases fuel with
    | zero => exact absurd hs (by rw [show sizeVal Val.vnull = 1 from rfl]; omega)
    | succ fuel =>
      rw [decVal]
      rw [show encVal Val.vnull = encHead 7 22 from rfl,
        decHead_encHead 7 22 r (by norm_num) (by norm_num)]
  | vbool b =>
    intro fuel r hs _
    cases fuel with
    | zero => exact absurd hs (by rw [show sizeVal (Val.vbool b) = 1 from rfl]; omega)
    | succ fuel =>
      cases b with
      | false =>
        rw [decVal]
        rw [show encVal (Val.vbool false) = encHead 7 20 from rfl,
          decHead_encHead 7 20 r (by norm_num) (by norm_num)]
      | true =>
        rw [decVal]
        rw [show encVal (Val.vbool true) = encHead 7 21 from rfl,
          decHead_encHead 7 21 r (by norm_num) (by norm_num)]
  | vint n =>
    intro fuel r hs hw
    cases fuel with
    | zero => exact absurd hs (by rw [show sizeVal (Val.vint n) = 1 from rfl]; omega)
    | succ fuel =>
      rw [decVal]
      by_cases hn : 0 ≤ n
      · have hb : n.toNat < 2 ^ 64 := by
          have := hw
          simp only [wfVal, if_pos hn, decide_eq_true_eq] at this
          exact this
        rw [show encVal (Val.vint n) = encHead 0 n.toNat by simp [encVal, if_pos hn],
          decHead_encHead 0 n.toNat r (by norm_num) hb]
        simp [Int.toNat_of_nonneg hn]
      · have hb : (-1 - n).toNat < 2 ^ 64 := by
          have := hw
          simp only [wfVal, if_neg hn, decide_eq_true_eq] at this
          exact this
        rw [show encVal (Val.vint n) = encHead 1 (-1 - n).toNat by simp [encVal, if_neg hn],
          decHead_encHead 1 (-1 - n).toNat r (by norm_num) hb]
        have h2 : -1 - Int.ofNat ((-1 - n).toNat) = n := by
          rw [Int.ofNat_eq_natCast]
          omega
        simp only [h2]
  | vbytes b =>
    intro fuel r hs hw
    cases fuel with
    | zero => exact absurd hs (by rw [show sizeVal (Val.vbytes b) = 1 from rfl]; omega)
    | succ fuel =>
      have hb : b.length < 2 ^ 64 := by
        simpa [wfVal] using hw
      rw [decVal, show encVal (Val.vbytes b) ++ r = encHead 2 b.length ++ (b ++ r) by
          simp [encVal],
        decHead_encHead 2 b.length (b ++ r) (by norm_num) hb]
      simp [take_append_left, drop_append_left]
  | vtext s =>
    intro fuel r hs hw
    cases fuel with
    | zero => exact absurd hs (by rw [show sizeVal (Val.vtext s) = 1 from rfl]; omega)
    | succ fuel =>
      have hb : s.length < 2 ^ 64 := by
        simpa [wfVal] using hw
      rw [decVal, show encVal (Val.vtext s) ++ r = encHead 3 s.length ++ (s ++ r) by
          simp [encVal],
        decHead_encHead 3 s.length (s ++ r) (by norm_num) hb]
      simp [take_append_left, drop_append_left]
  | varr xs =>
    intro fuel r hs hw
    cases fuel with
    | zero =>
      exact absurd hs (by rw [show sizeVal (Val.varr xs) = 1 + sizeValList xs from rfl]; omega)
    | succ fuel =>
      have hb : xs.length < 2 ^ 64 := by
        have := hw
        simp only [wfVal, Bool.and_eq_true, decide_eq_true_eq] at this
        exact this.1
      have hwl : wfValList xs = true := by
        have := hw
        simp only [wfVal, Bool.and_eq_true, decide_eq_true_eq] at this
        exact this.2
      rw [decVal, show encVal (Val.varr xs) ++ r = encHead 4 xs.length ++ (encValList xs ++ r) by
          simp [encVal],
        decHead_encHead 4 xs.length (encValList xs ++ r) (by norm_num) hb]
      have hrec := decValList_encValList xs fuel r (by
        rw [show sizeVal (Val.varr xs) = 1 + sizeValList xs from rfl] at hs
        omega) hwl
      simp only [hrec]
  | vmap kvs =>
    intro fuel r hs hw
    cases fuel with
    | zero =>
      exact absurd hs (by rw [show sizeVal (Val.vmap kvs) = 1 + sizeEntryList kvs from rfl]; omega)
    | succ fuel =>
      have hb : kvs.length < 2 ^ 64 := by
        have := hw
        simp only [wfVal, Bool.and_eq_true, decide_eq_true_eq] at this
        exact this.1
      have hwl : wfEntryList kvs = true := by
        have := hw
        simp only [wfVal, Bool.and_eq_true, decide_eq_true_eq] at this
        exact this.2
      rw [decVal, show encVal (Val.vmap kvs) ++ r =
          encHead 5 kvs.length ++ (encEntryList kvs ++ r) by simp [encVal],
        decHead_encHead 5 kvs.length (encEntryList kvs ++ r) (by norm_num) hb]
      have hrec := decEntryList_encEntryList kvs fuel r (by
        rw [show sizeVal (Val.vmap kvs) = 1 + sizeEntryList kvs from rfl] at hs
        omega) hwl
      simp only [hrec]

theorem decValList_encValList (vs : ValList) : ∀ (fuel : Nat) (r : Bytes),
    sizeValList vs ≤ fuel → wfValList vs = true →
    decValList fuel vs.length (encValList vs ++ r) = some (vs, r) := by
  cases vs with
  | nil =>
    intro fuel r _ _
    rw [show encValList ValList.nil ++ r = r by simp [encValList],
      show ValList.nil.length = 0 from rfl]
    rw [decValList]
  | cons v vs =>
    intro fuel r hs hw
    rw [show sizeValList (ValList.cons v vs) = 1 + sizeVal v + sizeValList vs from rfl] at hs
    cases fuel with
    | zero => omega
    | succ fuel =>
      have hwv : wfVal v = true := by
        have := hw
        simp only [wfValList, Bool.and_eq_true] at this
        exact this.1
      have hwvs : wfValList vs = true := by
        have := hw
        simp only [wfValList, Bool.and_eq_true] at this
        exact this.2
      rw [show (ValList.cons v vs).length = vs.length + 1 by
        rw [show (ValList.cons v vs).length = 1 + vs.length from rfl]; omega]
      rw [decValList]
      rw [show encValList (ValList.cons v vs) ++ r = encVal v ++ (encValList vs ++ r) by
        simp [encValList]]
      rw [decVal_encVal v fuel (encValList vs ++ r) (by omega) hwv]
      simp only [decValList_encValList vs fuel r (by omega) hwvs]

theorem decEntryList_encEntryList (kvs : EntryList) : ∀ (fuel : Nat) (r : Bytes),
    sizeEntryList kvs ≤ fuel → wfEntryList kvs = true →
    decEntryList fuel kvs.length (encEntryList kvs ++ r) = some (kvs, r) := by
  cases kvs with
  | nil =>
    intro fuel r _ _
    rw [show encEntryList EntryList.nil ++ r = r by simp [encEntryList],
      show EntryList.nil.length = 0 from rfl]
    rw [decEntryList]
  | cons k v kvs =>
    intro fuel r hs hw
    rw [show sizeEntryList (EntryList.cons k v kvs) = 1 + sizeVal v + sizeEntryList kvs
      from rfl] at hs
    cases fuel with
    | zero => omega
    | succ fuel =>
      have hwk : k.length < 2 ^ 64 := by
        have := hw
        simp only [wfEntryList, Bool.and_eq_true, decide_eq_true_eq] at this
        exact this.1.1
      have hwv : wfVal v = true := by
        have := hw
        simp only [wfEntryList, Bool.and_eq_true, decide_eq_true_eq] at this
        exact this.1.2
      have hwvs : wfEntryList kvs = true := by
        have := hw
        simp only [wfEntryList, Bool.and_eq_true, decide_eq_true_eq] at this
        exact this.2
      rw [show (EntryList.cons k v kvs).length = kvs.length + 1 by
        rw [show (EntryList.cons k v kvs).length = 1 + kvs.length from rfl]; omega]
      rw [decEntryList]
      rw [show encEntryList (EntryList.cons k v kvs) ++ r =
        encHead 3 k.length ++ (k ++ (encVal v ++ (encEntryList kvs ++ r))) by
        simp [encEntryList]]
      rw [decHead_encHead 3 k.length (k ++ (encVal v ++ (encEntryList kvs ++ r)))
        (by norm_num) hwk]
      have hlen : k.length ≤ (k ++ (encVal v ++ (encEntryList kvs ++ r))).length := by
        simp
      have hdec := decVal_encVal v fuel (encEntryList kvs ++ r) (by omega) hwv
      have hrest := decEntryList_encEntryList kvs fuel r (by omega) hwvs
      simp only [hlen, if_true, take_append_left, drop_append_left, hdec, hrest]
end

theorem b32digitsLE_length (k v : Nat) : (b32digitsLE k v).length = k := by
  induction k generalizing v with
  | zero => simp [b32digitsLE]
  | succ k ih => simp [b32digitsLE, ih]

theorem b32chars13_length (v : Nat) : (b32chars13 v).length = 13 := by
  simp [b32chars13, b32digitsLE_length]

theorem b32char_strictMono : ∀ i, i < 32 → ∀ j, j < 32 → i < j →
    b32char i < b32char j := by decide

/-- Lexicographic comparison of equal-length lists extends through a final
appended element. -/
theorem lex_append_last {α : Type} {r : α → α → Prop} :
    ∀ {l1 l2 : List α}, List.Lex r l1 l2 → l1.length = l2.length →
    ∀ (x y : α), List.Lex r (l1 ++ [x]) (l2 ++ [y]) := by
  intro l1 l2 h
  induction h with
  | nil => intro hlen; simp at hlen
  | rel h => intro _ x y; exact List.Lex.rel h
  | cons h ih =>
    intro hlen x y
    exact List.Lex.cons (ih (by simpa using hlen) x y)

/-- A strictly smaller final element after a common stem is lexicographically
smaller. -/
theorem lex_last_lt {α : Type} {r : α → α → Prop} (x y : α) (h : r x y) :
    ∀ (l : List α), List.Lex r (l ++ [x]) (l ++ [y]) := by
  intro l
  induction l with
  | nil => exact List.Lex.rel h
  | cons c cs ih => exact List.Lex.cons ih

theorem b32digitsLE_lt (k : Nat) : ∀ a b : Nat, a < b → b < 32 ^ k →
    List.Lex (fun c d : Char => c < d)
      ((b32digitsLE k a).reverse.map b32char) ((b32digitsLE k b).reverse.map b32char) := by
  induction k with
  | zero => intro a b hab hb; omega
  | succ k ih =>
    intro a b hab hb
    have hstep : ∀ v : Nat, (b32digitsLE (k + 1) v).reverse.map b32char =
        (b32digitsLE k (v / 32)).reverse.map b32char ++ [b32char (v % 32)] := by
      intro v
      simp [b32digitsLE]
    rw [hstep a, hstep b]
    have hbq : b / 32 < 32 ^ k := by
      rw [Nat.div_lt_iff_lt_mul (by norm_num)]
      calc b < 32 ^ (k + 1) := hb
      _ = 32 ^ k * 32 := by ring
    by_cases hq : a / 32 < b / 32
    · have hlex := ih (a / 32) (b / 32) hq hbq
      exact lex_append_last hlex (by simp [b32digitsLE_length]) _ _
    · have hqeq : a / 32 = b / 32 := by
        have : a / 32 ≤ b / 32 := Nat.div_le_div_right (le_of_lt hab)
        omega
      have hmlt : a % 32 < b % 32 := by
        have ha32 := Nat.div_add_mod a 32
        have hb32 := Nat.div_add_mod b 32
        omega
      rw [hqeq]
      exact lex_last_lt _ _
        (b32char_strictMono (a % 32) (Nat.mod_lt a (by norm_num)) (b % 32)
          (Nat.mod_lt b (by norm_num)) hmlt) _

/-- The base32-sortkey encoding is strictly monotone as a map from u64 values
to strings under lexicographic string order. -/
theorem encode_base32_sortkey_strictMono (a b : Nat) (hab : a < b) (hb : b < 2 ^ 64) :
    encode_base32_sortkey a < encode_base32_sortkey b := by
  rw [show encode_base32_sortkey a = String.mk (b32chars13 a) from rfl,
    show encode_base32_sortkey b = String.mk (b32chars13 b) from rfl,
    String.lt_iff_toList_lt]
  have hb13 : b < 32 ^ 13 := lt_of_lt_of_le hb (by norm_num)
  exact b32digitsLE_lt 13 a b hab hb13

/-- Within one generator, each next_tid strictly increases the stored value
(tid.rs loop invariant), as long as the u64 increment does not wrap. -/
theorem nextValue_gt_last (g : TidGenerator) (now : Nat) (hnw : g.last + 1 < U64MOD) :
    g.last < g.nextValue now := by
  unfold TidGenerator.nextValue
  split_ifs with h
  · exact h
  · rw [Nat.mod_eq_of_lt hnw]
    omega

/-- next_tid commits a value below 2^64. -/
theorem nextValue_lt_u64 (g : TidGenerator) (now : Nat) (hc : g.clockId < 1024) :
    g.nextValue now < U64MOD := by
  unfold TidGenerator.nextValue
  split_ifs with h
  · have h1 : (now * 1024) % U64MOD < 2 ^ 64 := Nat.mod_lt _ (by norm_num [U64MOD])
    have h2 : g.clockId < 2 ^ 64 := lt_trans hc (by norm_num)
    have := Nat.or_lt_two_pow (n := 64) h1 h2
    simpa [U64MOD] using this
  · exact Nat.mod_lt _ (by norm_num [U64MOD])

/-! ### Injectivity of content addressing -/

theorem lp_append_inj {a b x y : Bytes} (h : lp a ++ x = lp b ++ y) :
    a = b ∧ x = y := by
  simp only [lp, List.cons_append, List.cons.injEq] at h
  obtain ⟨hlen, htail⟩ := h
  exact List.append_inj htail hlen

theorem cidToBytes_inj {c d : Cid} (h : cidToBytes c = cidToBytes d) : c = d := by
  simp only [cidToBytes, List.cons.injEq] at h
  cases c; cases d
  simp_all

theorem flatNodeEntries_inj : ∀ {es1 es2 : List (Bytes × Cid)},
    flatNodeEntries es1 = flatNodeEntries es2 → es1 = es2 := by
  intro es1
  induction es1 with
  | nil =>
    intro es2 h
    cases es2 with
    | nil => rfl
    | cons e t =>
      exfalso
      obtain ⟨k, c⟩ := e
      simp [flatNodeEntries, lp] at h
  | cons e t ih =>
    intro es2 h
    obtain ⟨k, c⟩ := e
    cases es2 with
    | nil =>
      exfalso
      simp [flatNodeEntries, lp] at h
    | cons e2 t2 =>
      obtain ⟨k2, c2⟩ := e2
      simp only [flatNodeEntries, List.append_assoc] at h
      obtain ⟨hk, h2⟩ := lp_append_inj h
      obtain ⟨hc, h3⟩ := lp_append_inj h2
      have hcid := cidToBytes_inj hc
      rw [hk, hcid, ih h3]

theorem blockDigest_inj : ∀ {b1 b2 : Block}, blockDigest b1 = blockDigest b2 →
    b1 = b2 := by
  intro b1 b2 h
  cases b1 with
  | raw x =>
    cases b2 with
    | raw y =>
      simp only [blockDigest, List.cons.injEq] at h
      simp [h.2]
    | node es => simp [blockDigest] at h
    | commit c => simp [blockDigest] at h
  | node es =>
    cases b2 with
    | raw y => simp [blockDigest] at h
    | node es2 =>
      simp only [blockDigest, List.cons.injEq] at h
      simp [flatNodeEntries_inj h.2]
    | commit c => simp [blockDigest] at h
  | commit c1 =>
    cases b2 with
    | raw y => simp [blockDigest] at h
    | node es => simp [blockDigest] at h
    | commit c2 =>
      simp only [blockDigest, List.cons.injEq] at h
      obtain ⟨_, h2⟩ := h
      simp only [List.append_assoc] at h2
      obtain ⟨hdid, h3⟩ := lp_append_inj h2
      obtain ⟨hdata, h4⟩ := lp_append_inj h3
      obtain ⟨hrev, h5⟩ := lp_append_inj h4
      obtain ⟨hprev, h6⟩ := lp_append_inj h5
      obtain ⟨hsig, h7⟩ := lp_append_inj h6
      have hver : c1.version = c2.version := by simpa using h7
      have hdata2 := cidToBytes_inj hdata
      have hprev2 : c1.prev = c2.prev := by
        cases hp1 : c1.prev <;> cases hp2 : c2.prev <;>
          simp only [hp1, hp2, prevBytes] at hprev
        · rfl
        · exact absurd hprev.symm (by simp [cidToBytes])
        · exact absurd hprev (by simp [cidToBytes])
        · rw [cidToBytes_inj hprev]
      cases c1; cases c2
      simp_all

theorem cidOfBlock_inj {b1 b2 : Block} (h : cidOfBlock b1 = cidOfBlock b2) :
    b1 = b2 := by
  simp only [cidOfBlock, Cid.mk.injEq] at h
  exact blockDigest_inj h.2

theorem storeInv_nil : StoreInv ⟨[]⟩ := by
  intro e he
  simp at he

theorem getBlock_mem {st : BlockStore} {did cidB : Bytes} {b : Block}
    (h : getBlock st did cidB = some b) : ((did, cidB), b) ∈ st.blocks := by
  unfold getBlock at h
  cases hf : st.blocks.find? (fun e => decide (e.1 = (did, cidB))) with
  | none => simp [hf] at h
  | some e =>
    have hm := List.find?_some hf
    have hmem := List.mem_of_find?_eq_some hf
    simp only [decide_eq_true_eq] at hm
    simp only [hf, Option.map_some] at h
    obtain ⟨⟨d2, c2⟩, blk⟩ := e
    simp only [Prod.mk.injEq] at hm
    obtain ⟨hm1, hm2⟩ := hm
    subst hm1
    subst hm2
    have hb : b = blk := by simpa using h.symm
    subst hb
    exact hmem

theorem storeInv_putBlock {st : BlockStore} {did : Bytes} {b : Block}
    (hinv : StoreInv st) :
    StoreInv (putBlock st did (cidToBytes (cidOfBlock b)) b) := by
  unfold putBlock
  cases hg : getBlock st did (cidToBytes (cidOfBlock b)) with
  | some b0 => exact hinv
  | none =>
    intro e he
    simp only [List.mem_append, List.mem_singleton] at he
    cases he with
    | inl h => exact hinv e h
    | inr h => rw [h]

theorem getBlock_putBlock_same {st : BlockStore} {did : Bytes} {b : Block}
    (hinv : StoreInv st) :
    getBlock (putBlock st did (cidToBytes (cidOfBlock b)) b) did
      (cidToBytes (cidOfBlock b)) = some b := by
  unfold putBlock
  cases hg : getBlock st did (cidToBytes (cidOfBlock b)) with
  | some b0 =>
    have hmem := getBlock_mem hg
    have hkey := hinv _ hmem
    have hb : b0 = b := blockDigest_inj (by
      have := cidToBytes_inj hkey.symm
      simpa [cidOfBlock, Cid.mk.injEq] using this)
    rw [hg, hb]
  | none =>
    unfold getBlock at hg ⊢
    simp only [List.find?_append, hg]
    cases hf : st.blocks.find? (fun e => decide (e.1 = (did, cidToBytes (cidOfBlock b)))) with
    | some e => simp [hf] at hg
    | none => simp

theorem getBlock_putBlock_mono {st : BlockStore} {did cidB did2 cidB2 : Bytes}
    {b b2 : Block} (h : getBlock st did2 cidB2 = some b2) :
    getBlock (putBlock st did cidB b) did2 cidB2 = some b2 := by
  unfold putBlock
  cases hg : getBlock st did cidB with
  | some b0 => exact h
  | none =>
    unfold getBlock at h ⊢
    simp only [List.find?_append]
    cases hf : st.blocks.find? (fun e => decide (e.1 = (did2, cidB2))) with
    | none => simp [hf] at h
    | some e => simp [hf, h.symm, ← h]

/-! ### MST map lemmas -/

theorem mstLookup_insert_self (k : Bytes) (c : Cid) :
    ∀ es, mstLookup k (mstInsert k c es) = some c := by
  intro es
  induction es with
  | nil => simp [mstInsert, mstLookup]
  | cons e t ih =>
    obtain ⟨k2, c2⟩ := e
    by_cases hk : k = k2
    · simp [mstInsert, hk, mstLookup]
    · have hsym : ¬ (k2 = k) := fun h => hk h.symm
      by_cases hlt : bytesLt k k2
      · simp [mstInsert, hk, hlt, mstLookup]
      · simp [mstInsert, hk, hlt, mstLookup, hsym, ih]

theorem mstLookup_insert_other (k k2 : Bytes) (c : Cid) (hne : k2 ≠ k) :
    ∀ es, mstLookup k (mstInsert k2 c es) = mstLookup k es := by
  intro es
  induction es with
  | nil => simp [mstInsert, mstLookup, hne]
  | cons e t ih =>
    obtain ⟨k3, c3⟩ := e
    by_cases h1 : k2 = k3
    · have h3 : ¬ (k3 = k) := fun h => hne (h1.trans h)
      simp [mstInsert, h1, mstLookup, hne, h3]
    · by_cases h2 : bytesLt k2 k3
      · simp [mstInsert, h1, h2, mstLookup, hne]
      · simp [mstInsert, h1, h2, mstLookup, hne, ih]

theorem mstLookup_remove_other (k k2 : Bytes) (hne : k2 ≠ k) :
    ∀ es, mstLookup k (mstRemove k2 es) = mstLookup k es := by
  intro es
  induction es with
  | nil => simp [mstRemove]
  | cons e t ih =>
    obtain ⟨k3, c3⟩ := e
    by_cases h1 : k3 = k2
    · have h3 : ¬ (k3 = k) := fun h => hne (h1 ▸ h)
      simp [mstRemove, h1, mstLookup, h3, hne]
    · simp [mstRemove, h1, mstLookup, ih]

theorem encHead_length_pos (m n : Nat) : 1 ≤ (encHead m n).length := by
  unfold encHead
  split_ifs <;> simp [natBE_length]

theorem encHead_length_le (m n : Nat) : (encHead m n).length ≤ 9 := by
  unfold encHead
  split_ifs <;> simp [natBE_length]

mutual
theorem sizeVal_le_encLength (v : Val) : sizeVal v + 1 ≤ 2 * (encVal v).length := by
  cases v with
  | vnull =>
    have := encHead_length_pos 7 22
    simp only [sizeVal, encVal]
    omega
  | vbool b =>
    cases b with
    | false =>
      have := encHead_length_pos 7 20
      simp only [sizeVal, encVal]
      omega
    | true =>
      have := encHead_length_pos 7 21
      simp only [sizeVal, encVal]
      omega
  | vint n =>
    by_cases hn : 0 ≤ n
    · have := encHead_length_pos 0 n.toNat
      simp only [sizeVal, encVal, if_pos hn]
      omega
    · have := encHead_length_pos 1 (-1 - n).toNat
      simp only [sizeVal, encVal, if_neg hn]
      omega
  | vbytes b =>
    have := encHead_length_pos 2 b.length
    simp only [sizeVal, encVal, List.length_append]
    omega
  | vtext s =>
    have := encHead_length_pos 3 s.length
    simp only [sizeVal, encVal, List.length_append]
    omega
  | varr xs =>
    have h1 := encHead_length_pos 4 xs.length
    have h2 := sizeValList_le_encLength xs
    simp only [sizeVal, encVal, List.length_append]
    omega
  | vmap kvs =>
    have h1 := encHead_length_pos 5 kvs.length
    have h2 := sizeEntryList_le_encLength kvs
    simp only [sizeVal, encVal, List.length_append]
    omega

theorem sizeValList_le_encLength (vs : ValList) :
    sizeValList vs ≤ 2 * (encValList vs).length := by
  cases vs with
  | nil => simp [sizeValList, encValList]
  | cons v t =>
    have h1 := sizeVal_le_encLength v
    have h2 := sizeValList_le_encLength t
    simp only [sizeValList, encValList, List.length_append]
    omega

theorem sizeEntryList_le_encLength (kvs : EntryList) :
    sizeEntryList kvs ≤ 2 * (encEntryList kvs).length := by
  cases kvs with
  | nil => simp [sizeEntryList, encEntryList]
  | cons k v t =>
    have h1 := sizeVal_le_encLength v
    have h2 := sizeEntryList_le_encLength t
    have h3 := encHead_length_pos 3 k.length
    simp only [sizeEntryList, encEntryList, List.length_append]
    omega
end

/-- Decoding an exact encoded value with the full-block fuel succeeds. -/
theorem decValFull_encVal (v : Val) (hwf : wfVal v = true) :
    decValFull (encVal v) = some (v, []) := by
  have hs : sizeVal v ≤ 2 * (encVal v).length + 1 := by
    have := sizeVal_le_encLength v
    omega
  have h := decVal_encVal v (2 * (encVal v).length + 1) [] hs hwf
  simpa [decValFull] using h

theorem cidFromBytes_cidToBytes (c : Cid) : cidFromBytes (cidToBytes c) = some c := by
  cases c
  rfl

theorem commitOfVal_commitEntries (c : CommitData) :
    commitOfVal (.vmap (commitEntries c)) = some c := by
  unfold commitEntries
  simp only [commitOfVal]
  rw [if_pos (by
    refine ⟨trivial, trivial, trivial, trivial, trivial, trivial, ?_⟩
    exact Int.ofNat_nonneg c.version)]
  simp only [cidFromBytes_cidToBytes]
  cases hp : c.prev with
  | none =>
    simp only [prevVal]
    cases c
    simp_all [Int.toNat_ofNat]
  | some p =>
    simp only [prevVal, cidFromBytes_cidToBytes]
    cases c
    simp_all [Int.toNat_ofNat]

/-- Decoding the DAG-CBOR of a representable signed commit recovers the
commit. -/
theorem decCommit_encCommit (c : CommitData) (hwf : commitWfB c = true) :
    decCommit (encCommit c) = some c := by
  unfold decCommit
  rw [show encCommit c = encVal (.vmap (commitEntries c)) from rfl]
  rw [decValFull_encVal _ hwf]
  simpa using commitOfVal_commitEntries c

/-! ## Claim C9 -/

/-- C9: Within one TidGenerator instance, successively produced TIDs are
strictly increasing lexicographically; the 13-character base32-sortkey
encoding is strictly monotone on u64 values; and when the clock has not
advanced past the stored value the generator bumps the stored value by one
(u64 increment). -/
theorem tid_strict_monotonicity :
    (∀ (g : TidGenerator) (now1 now2 : Nat), g.clockId < 1024 →
      ((g.nextTid now1).2).last + 1 < 2 ^ 64 →
      ((g.nextTid now1).1) < (((g.nextTid now1).2).nextTid now2).1) ∧
    (∀ a b : Nat, a < b → b < 2 ^ 64 →
      encode_base32_sortkey a < encode_base32_sortkey b) ∧
    (∀ (g : TidGenerator) (now : Nat), g.candidate now ≤ g.last →
      ((g.nextTid now).2).last = (g.last + 1) % U64MOD) := by
  refine ⟨?_, encode_base32_sortkey_strictMono, ?_⟩
  · intro g now1 now2 hc hnw
    have hlt : ((g.nextTid now1).2).last <
        ((g.nextTid now1).2).nextValue now2 :=
      nextValue_gt_last _ now2 (by simpa [U64MOD] using hnw)
    have hub : ((g.nextTid now1).2).nextValue now2 < U64MOD :=
      nextValue_lt_u64 _ now2 (by
        simpa [TidGenerator.nextTid] using hc)
    have h1 : (g.nextTid now1).1 =
        encode_base32_sortkey (((g.nextTid now1).2).last) := rfl
    rw [h1, show (((g.nextTid now1).2).nextTid now2).1 =
        encode_base32_sortkey (((g.nextTid now1).2).nextValue now2) from rfl]
    exact encode_base32_sortkey_strictMono _ _ hlt (by simpa [U64MOD] using hub)
  · intro g now h
    have hng : ¬ (g.candidate now > g.last) := not_lt.mpr h
    simp [TidGenerator.nextTid, TidGenerator.nextValue, hng]

/-- Witness for C9 at concrete inputs. -/
theorem tid_strict_monotonicity_witness :
    ((TidGenerator.mkNew 7).clockId < 1024 ∧
      (((TidGenerator.mkNew 7).nextTid 1000000).2).last + 1 < 2 ^ 64 ∧
      (2 : Nat) < 5 ∧ (5 : Nat) < 2 ^ 64 ∧
      (TidGenerator.mk 5 999999999).candidate 0 ≤ (TidGenerator.mk 5 999999999).last) ∧
    ((TidGenerator.mkNew 7).nextTid 1000000).1 <
      ((((TidGenerator.mkNew 7).nextTid 1000000).2).nextTid 1000000).1 ∧
    encode_base32_sortkey 2 < encode_base32_sortkey 5 ∧
    (((TidGenerator.mk 5 999999999).nextTid 0).2).last =
      ((TidGenerator.mk 5 999999999).last + 1) % U64MOD :=
  ⟨⟨by decide, by decide, by decide, by decide, by decide⟩,
    tid_strict_monotonicity.1 (TidGenerator.mkNew 7) 1000000 1000000
      (by decide) (by decide),
    tid_strict_monotonicity.2.1 2 5 (by decide) (by decide),
    tid_strict_monotonicity.2.2 (TidGenerator.mk 5 999999999) 0 (by decide)⟩

set_option maxRecDepth 10000 in
/-- C3 (code bug): both putRecord requests succeed and each replaces the repo
root, yet the second commit's rev is lexicographically SMALLER than the
first's — the fresh per-request TidGenerator defeats the monotonicity the
spec states for commit revs. -/
theorem commit_rev_regression_across_requests :
    (putRecordRoute c3St1 c3Did c3Body1 c3Env1).1.isOk = true ∧
    (putRecordRoute c3St2 c3Did c3Body2 c3Env2).1.isOk = true ∧
    revAt c3St2 c3Did ≠ revAt c3St3 c3Did ∧
    revAt c3St3 c3Did < revAt c3St2 c3Did :=
  ⟨by decide, by decide, by decide,
    String.lt_iff_toList_lt.mpr (by decide)⟩

/-- C7 counterexample: the first event's persistence fails (logged), the
second succeeds; the second event is assigned seq 2, yet the store holds its
row under seq 1 — no persisted entry carries seq 2 even though that event's
persistence did not fail. -/
theorem event_seq_mismatch_after_persist_failure :
    (runEmits c7State0 [(c7Ev, false), (c7Ev, true)]).2 = [1, 2] ∧
    ((runEmits c7State0 [(c7Ev, false), (c7Ev, true)]).1.eventStore.map
      (fun e => e.seq)) = [1] ∧
    ¬ (∃ e ∈ (runEmits c7State0 [(c7Ev, false), (c7Ev, true)]).1.eventStore,
        e.seq = 2) := by
  refine ⟨by decide, by decide, ?_⟩
  decide

theorem emitAndPersist_eventStore_mono {st : AppState} {ev : FirehoseEvent}
    {ok : Bool} {e : PersistedEvent} (h : e ∈ st.eventStore) :
    e ∈ (emitAndPersist st ev ok).eventStore := by
  unfold emitAndPersist
  cases hseq : st.hasSequencer <;> split_ifs <;> simp_all [appendEvent]

theorem runEmits_eventStore_mono {st : AppState} {evs : List (FirehoseEvent × Bool)}
    {e : PersistedEvent} (h : e ∈ st.eventStore) :
    e ∈ (runEmits st evs).1.eventStore := by
  induction evs generalizing st with
  | nil => simpa [runEmits] using h
  | cons p rest ih =>
    obtain ⟨ev, ok⟩ := p
    unfold runEmits
    exact ih (emitAndPersist_eventStore_mono h)

theorem denseFrom1_append (log : List PersistedEvent) (et : String) (d p : Bytes)
    (h : denseFrom1 log) :
    denseFrom1 ((appendEvent log et d p).1) := by
  unfold denseFrom1 at h ⊢
  unfold appendEvent
  simp only [List.map_append, List.length_append, List.map_cons, List.map_nil,
    List.length_cons, List.length_nil]
  rw [h]
  rw [show log.length + (0 + 1) = log.length + 1 by omega, List.range_succ]
  simp

theorem emitAndPersist_fields (st : AppState) (ev : FirehoseEvent)
    (h : st.hasEventStore = true) :
    (emitAndPersist st ev true).eventStore =
      (appendEvent st.eventStore (ev.typeAndDid).1 (ev.typeAndDid).2
        (encodeEventFrame ev)).1 ∧
    (emitAndPersist st ev true).seqCounter = st.seqCounter ∧
    (emitAndPersist st ev true).hasEventStore = true := by
  unfold emitAndPersist
  rw [h]
  simp only [if_true]
  split_ifs <;> simp_all

/-- C7 amended: as long as no persistence failure has occurred since the
sequencer was seeded from max_seq, every emitted event has a persisted entry
whose stored seq equals its assigned seq, and the stored seq column stays
dense and gap-free from 1. -/
theorem event_store_dense_and_synced (st : AppState) (evs : List (FirehoseEvent × Bool))
    (hstore : st.hasEventStore = true)
    (hsync : st.seqCounter = Int.ofNat st.eventStore.length + 1)
    (hdense : denseFrom1 st.eventStore)
    (hok : ∀ p ∈ evs, p.2 = true) :
    denseFrom1 ((runEmits st evs).1.eventStore) ∧
    ∀ s ∈ (runEmits st evs).2, ∃ e ∈ (runEmits st evs).1.eventStore, e.seq = s := by
  induction evs generalizing st with
  | nil =>
    refine ⟨by simpa [runEmits] using hdense, ?_⟩
    simp [runEmits]
  | cons p rest ih =>
    obtain ⟨ev, ok⟩ := p
    have hokhd : ok = true := hok (ev, ok) (by simp)
    subst hokhd
    have hoktl : ∀ q ∈ rest, q.2 = true := fun q hq => hok q (by simp [hq])
    have hrun : runEmits st ((ev, true) :: rest) =
        ((runEmits (emitAndPersist { st with seqCounter := st.seqCounter + 1 }
            (ev.withSeq st.seqCounter) true) rest).1,
          st.seqCounter ::
            (runEmits (emitAndPersist { st with seqCounter := st.seqCounter + 1 }
              (ev.withSeq st.seqCounter) true) rest).2) := rfl
    have hf := emitAndPersist_fields { st with seqCounter := st.seqCounter + 1 }
      (ev.withSeq st.seqCounter) hstore
    have hstore2 := hf.2.2
    have hsync2 : (emitAndPersist { st with seqCounter := st.seqCounter + 1 }
        (ev.withSeq st.seqCounter) true).seqCounter =
        Int.ofNat (emitAndPersist { st with seqCounter := st.seqCounter + 1 }
          (ev.withSeq st.seqCounter) true).eventStore.length + 1 := by
      rw [hf.2.1, hf.1]
      simp only [appendEvent, List.length_append, List.length_cons, List.length_nil]
      show st.seqCounter + 1 = _
      rw [hsync]
      simp only [Int.ofNat_eq_natCast]
      push_cast
      omega
    have hdense2 : denseFrom1 (emitAndPersist { st with seqCounter := st.seqCounter + 1 }
        (ev.withSeq st.seqCounter) true).eventStore := by
      rw [hf.1]
      exact denseFrom1_append _ _ _ _ hdense
    obtain ⟨ihd, ihm⟩ := ih _ hstore2 hsync2 hdense2 hoktl
    rw [hrun]
    refine ⟨ihd, ?_⟩
    intro s hs
    simp only [List.mem_cons] at hs
    cases hs with
    | inl hhd =>
      subst hhd
      refine ⟨⟨Int.ofNat st.eventStore.length + 1,
        ((ev.withSeq st.seqCounter).typeAndDid).1,
        ((ev.withSeq st.seqCounter).typeAndDid).2,
        encodeEventFrame (ev.withSeq st.seqCounter)⟩, ?_, ?_⟩
      · apply runEmits_eventStore_mono
        rw [hf.1]
        simp [appendEvent]
      · rw [hsync]
    | inr htl => exact ihm s htl

/-- Witness for the amended C7 theorem at a concrete input. -/
theorem event_store_dense_and_synced_witness :
    (c7State0.hasEventStore = true ∧
      c7State0.seqCounter = Int.ofNat c7State0.eventStore.length + 1 ∧
      denseFrom1 c7State0.eventStore ∧
      (∀ p ∈ [(c7Ev, true)], p.2 = true)) ∧
    (denseFrom1 ((runEmits c7State0 [(c7Ev, true)]).1.eventStore) ∧
      ∀ s ∈ (runEmits c7State0 [(c7Ev, true)]).2,
        ∃ e ∈ (runEmits c7State0 [(c7Ev, true)]).1.eventStore, e.seq = s) :=
  ⟨⟨by decide, by decide, by unfold denseFrom1; decide, by decide⟩,
    event_store_dense_and_synced c7State0 [(c7Ev, true)]
      (by decide) (by decide) (by unfold denseFrom1; decide) (by decide)⟩

/-! ## Claim C8 -/

/-- C8: a provided swap_commit that is not byte-equal to the current root CID
string fails the whole applyWrites request with InvalidSwap (HTTP 400) and
leaves the entire state untouched; a matching swap_commit lets the batch
proceed exactly as if no swap_commit had been provided. -/
theorem apply_writes_swap_commit_check (st : AppState) (userDid : Bytes)
    (body : ApplyWritesRequest) (env : WriteEnv) (s : Bytes)
    (acct : ActorAccount) (rr : RepoRoot) (c : Cid)
    (hrepo : body.repo = userDid)
    (hacct : getAccountByDid st userDid = some acct)
    (hroot : getRepoRoot st.repoRoots userDid = some rr)
    (hcid : cidFromBytes rr.cid = some c)
    (hswap : body.swapCommit = some s) :
    (s ≠ cidToString c →
      applyWritesRoute st userDid body env = (.error ⟨400, "InvalidSwap"⟩, st)) ∧
    (s = cidToString c →
      applyWritesRoute st userDid body env =
        applyWritesRoute st userDid { body with swapCommit := none } env) := by
  constructor
  · intro hne
    unfold applyWritesRoute
    rw [if_neg (by simp [hrepo])]
    simp only [hacct, hroot, hswap, hcid, if_pos hne]
  · intro heq
    unfold applyWritesRoute
    have hnot : ¬ (s ≠ cidToString c) := by simp [heq]
    rw [if_neg (by simp [hrepo]), if_neg (by simp [hrepo])]
    simp only [hacct, hroot, hswap, hcid, if_neg hnot]

/-- Witness for C8 at a concrete input. -/
theorem apply_writes_swap_commit_check_witness :
    (c8Body.repo = [1] ∧
      getAccountByDid c8State [1] = some c8Acct ∧
      getRepoRoot c8State.repoRoots [1] = some c8Root ∧
      cidFromBytes c8Root.cid = some ⟨113, [9]⟩ ∧
      c8Body.swapCommit = some [0] ∧
      [0] ≠ cidToString (⟨113, [9]⟩ : Cid)) ∧
    applyWritesRoute c8State [1] c8Body c8Env = (.error ⟨400, "InvalidSwap"⟩, c8State) :=
  ⟨⟨by decide, by decide, by decide, by decide, by decide, by decide⟩,
    (apply_writes_swap_commit_check c8State [1] c8Body c8Env [0] c8Acct c8Root
      ⟨113, [9]⟩ (by decide) (by decide) (by decide) (by decide) (by decide)).1
      (by decide)⟩

/-! ## Claim C10 -/

/-- C10: whenever createRecord, putRecord or deleteRecord returns an error
(authorization failure, missing account, missing repo root, or a repo
mutation error), the stored repo-root pointer is unchanged and no firehose
event is allocated a sequence number, broadcast, persisted, or relayed: all
of that happens only after the repo mutation and the root update succeed. -/
theorem write_routes_error_leaves_state_unchanged (st : AppState) (userDid : Bytes)
    (env : WriteEnv) :
    (∀ (body : CreateRecordRequest) (e : XrpcErr) (st2 : AppState),
      createRecordRoute st userDid body env = (.error e, st2) →
      st2.repoRoots = st.repoRoots ∧ st2.seqCounter = st.seqCounter ∧
      st2.eventStore = st.eventStore ∧ st2.broadcast = st.broadcast ∧
      st2.relayNotified = st.relayNotified) ∧
    (∀ (body : PutRecordRequest) (e : XrpcErr) (st2 : AppState),
      putRecordRoute st userDid body env = (.error e, st2) →
      st2.repoRoots = st.repoRoots ∧ st2.seqCounter = st.seqCounter ∧
      st2.eventStore = st.eventStore ∧ st2.broadcast = st.broadcast ∧
      st2.relayNotified = st.relayNotified) ∧
    (∀ (body : DeleteRecordRequest) (e : XrpcErr) (st2 : AppState),
      deleteRecordRoute st userDid body env = (.error e, st2) →
      st2.repoRoots = st.repoRoots ∧ st2.seqCounter = st.seqCounter ∧
      st2.eventStore = st.eventStore ∧ st2.broadcast = st.broadcast ∧
      st2.relayNotified = st.relayNotified) := by
  have key1 : ∀ (body : CreateRecordRequest),
      (createRecordRoute st userDid body env).1.isOk = false →
      (createRecordRoute st userDid body env).2 = st := by
    intro body
    unfold createRecordRoute
    split
    · intro _; rfl
    · split
      · intro _; rfl
      · split
        · intro _; rfl
        · split
          · intro _; rfl
          · intro hbad
            simp [Except.isOk, Except.toBool] at hbad
  have key2 : ∀ (body : PutRecordRequest),
      (putRecordRoute st userDid body env).1.isOk = false →
      (putRecordRoute st userDid body env).2 = st := by
    intro body
    unfold putRecordRoute
    split
    · intro _; rfl
    · split
      · intro _; rfl
      · split
        · intro _; rfl
        · split
          · intro _; rfl
          · intro hbad
            simp [Except.isOk, Except.toBool] at hbad
  have key3 : ∀ (body : DeleteRecordRequest),
      (deleteRecordRoute st userDid body env).1.isOk = false →
      (deleteRecordRoute st userDid body env).2 = st := by
    intro body
    unfold deleteRecordRoute
    split
    · intro _; rfl
    · split
      · intro _; rfl
      · split
        · intro _; rfl
        · split
          · intro _; rfl
          · intro hbad
            simp [Except.isOk, Except.toBool] at hbad
  refine ⟨?_, ?_, ?_⟩
  · intro body e st2 h
    have hst : st2 = st := by
      have hk := key1 body (by rw [h]; rfl)
      rw [h] at hk
      exact hk
    subst hst
    exact ⟨rfl, rfl, rfl, rfl, rfl⟩
  · intro body e st2 h
    have hst : st2 = st := by
      have hk := key2 body (by rw [h]; rfl)
      rw [h] at hk
      exact hk
    subst hst
    exact ⟨rfl, rfl, rfl, rfl, rfl⟩
  · intro body e st2 h
    have hst : st2 = st := by
      have hk := key3 body (by rw [h]; rfl)
      rw [h] at hk
      exact hk
    subst hst
    exact ⟨rfl, rfl, rfl, rfl, rfl⟩

/-- Witness for C10: a deleteRecord whose repo field does not match the
authenticated DID fails with AuthorizationError and changes nothing. -/
theorem write_routes_error_unchanged_witness :
    deleteRecordRoute c8State [1]
      { repo := [2], collection := [5], rkey := [6] } c8Env =
      (.error ⟨403, "AuthorizationError"⟩, c8State) ∧
    (c8State.repoRoots = c8State.repoRoots ∧ c8State.seqCounter = c8State.seqCounter ∧
      c8State.eventStore = c8State.eventStore ∧ c8State.broadcast = c8State.broadcast ∧
      c8State.relayNotified = c8State.relayNotified) :=
  ⟨rfl,
    (write_routes_error_leaves_state_unchanged c8State [1] c8Env).2.2
      { repo := [2], collection := [5], rkey := [6] } ⟨403, "AuthorizationError"⟩
      c8State rfl⟩

theorem commitEvs_append (a b : List FirehoseEvent) :
    commitEvs (a ++ b) = commitEvs a ++ commitEvs b := by
  unfold commitEvs
  apply List.filterMap_append

theorem mem_of_mem_commitEvs {l : List FirehoseEvent} {c : CommitEvent}
    (h : c ∈ commitEvs l) : FirehoseEvent.commitEv c ∈ l := by
  unfold commitEvs at h
  rcases List.mem_filterMap.mp h with ⟨e, he, hf⟩
  cases e with
  | commitEv c0 =>
    simp only [Option.some.injEq] at hf
    rwa [hf] at he
  | identityEv e0 => simp at hf
  | accountEv e0 => simp at hf

theorem mem_of_getLast?_mem {α : Type} {l : List α} {a : α}
    (h : a ∈ l.getLast?) : a ∈ l := by
  rcases List.mem_getLast?_eq_getLast h with ⟨hne, rfl⟩
  exact List.getLast_mem hne

theorem getRepoRoot_map_update (roots : List RepoRoot) (did cid : Bytes)
    (rev : String) (hsome : getRepoRoot roots did ≠ none) :
    getRepoRoot (roots.map (fun r =>
        if r.did = did then { did := did, cid := cid, rev := rev } else r)) did =
      some { did := did, cid := cid, rev := rev } := by
  induction roots with
  | nil => simp [getRepoRoot] at hsome
  | cons h t ih =>
    by_cases hd : h.did = did
    · simp [getRepoRoot, List.find?_cons_of_pos, hd]
    · unfold getRepoRoot at *
      simp only [List.map_cons]
      rw [if_neg hd]
      rw [List.find?_cons_of_neg _ (by simp [hd])] at hsome ⊢
      exact ih hsome

theorem getRepoRoot_append_self (roots : List RepoRoot) (did cid : Bytes)
    (rev : String) (hnone : getRepoRoot roots did = none) :
    getRepoRoot (roots ++ [{ did := did, cid := cid, rev := rev }]) did =
      some { did := did, cid := cid, rev := rev } := by
  induction roots with
  | nil => simp [getRepoRoot]
  | cons h t ih =>
    unfold getRepoRoot at *
    by_cases hd : h.did = did
    · rw [List.find?_cons_of_pos _ (by simp [hd])] at hnone
      exact absurd hnone (by simp)
    · simp only [List.cons_append]
      rw [List.find?_cons_of_neg _ (by simp [hd])] at hnone ⊢
      exact ih hnone

theorem getRepoRoot_updateRepoRoot_self (roots : List RepoRoot) (did cid : Bytes)
    (rev : String) :
    getRepoRoot (updateRepoRoot roots did cid rev) did =
      some { did := did, cid := cid, rev := rev } := by
  unfold updateRepoRoot
  cases hr : getRepoRoot roots did with
  | some r => exact getRepoRoot_map_update roots did cid rev (by rw [hr]; simp)
  | none => exact getRepoRoot_append_self roots did cid rev hr

theorem emitCommitTail_noseq (st : AppState) (did newRoot prevRoot : Bytes)
    (rev : String) (ops : List RepoOp) (env : WriteEnv)
    (hseq : st.hasSequencer = false) :
    emitCommitTail st did newRoot prevRoot rev ops env = st := by
  unfold emitCommitTail
  rw [if_neg (by simp [hseq])]

theorem emitCommitTail_spec (st : AppState) (did newRoot prevRoot : Bytes)
    (rev : String) (ops : List RepoOp) (env : WriteEnv)
    (hseq : st.hasSequencer = true) :
    (emitCommitTail st did newRoot prevRoot rev ops env).broadcast =
      st.broadcast ++ [FirehoseEvent.commitEv
        { seq := st.seqCounter, tooBig := false, repo := did,
          commit := cidBytesToStringD newRoot,
          prev := some (cidBytesToStringD prevRoot), rev := rev, time := env.time,
          ops := ops,
          blocks := diffCarD st.repoStore did newRoot (some prevRoot) }] ∧
    (emitCommitTail st did newRoot prevRoot rev ops env).seqCounter =
      st.seqCounter + 1 ∧
    (emitCommitTail st did newRoot prevRoot rev ops env).repoRoots = st.repoRoots ∧
    (emitCommitTail st did newRoot prevRoot rev ops env).hasSequencer =
      st.hasSequencer := by
  unfold emitCommitTail emitAndPersist
  rw [if_pos hseq]
  cases hes : st.hasEventStore <;> cases hok : env.persistOk <;>
    cases hrel : st.hasRelay <;> simp [hseq, hes, hok, hrel]

theorem emitCommitTail_spec_witness :
    c4State.hasSequencer = true ∧
    ((emitCommitTail c4State [1] [1, 113, 8] [1, 113, 9] "b" []
        { clockRand := 5, now := 1000000, time := [9], persistOk := true }).seqCounter =
      c4State.seqCounter + 1) :=
  ⟨rfl, (emitCommitTail_spec c4State [1] [1, 113, 8] [1, 113, 9] "b" []
    { clockRand := 5, now := 1000000, time := [9], persistOk := true } rfl).2.1⟩

theorem c4_inv_emit (st : AppState) (did : Bytes) (store2 : BlockStore)
    (newRoot : Bytes) (newRev : String) (r : RepoRoot) (ops : List RepoOp)
    (env : WriteEnv) (hroot : getRepoRoot st.repoRoots did = some r)
    (hinv : C4Inv st did) :
    C4Inv (emitCommitTail
      { st with
        repoStore := store2
        repoRoots := updateRepoRoot st.repoRoots did newRoot newRev }
      did newRoot r.cid newRev ops env) did := by
  obtain ⟨h1, h2, h3⟩ := hinv
  rcases Bool.eq_false_or_eq_true st.hasSequencer with hseq | hseq
  · obtain ⟨hb, hc, hr, hf⟩ := emitCommitTail_spec
      { st with
        repoStore := store2
        repoRoots := updateRepoRoot st.repoRoots did newRoot newRev }
      did newRoot r.cid newRev ops env (by simp [hseq])
    refine ⟨?_, ?_, ?_⟩
    · intro e he
      rw [hb] at he
      rw [hc]
      show FirehoseEvent.seq e < st.seqCounter + 1
      rcases List.mem_append.mp he with hold | hnew
      · have h := h1 e hold
        omega
      · rcases List.mem_singleton.mp hnew with rfl
        show st.seqCounter < st.seqCounter + 1
        omega
    · rw [hb, commitEvs_append]
      refine List.Chain'.append h2 (List.chain'_singleton _) ?_
      intro x hx y hy
      simp only [commitEvs, List.filterMap_cons, List.filterMap_nil, List.head?,
        Option.mem_def, Option.some.injEq] at hy
      subst hy
      refine ⟨h1 (FirehoseEvent.commitEv x)
        (mem_of_mem_commitEvs (mem_of_getLast?_mem hx)), ?_⟩
      have hxc := h3 hseq x hx r (Option.mem_def.mpr hroot)
      rw [hxc]
    · intro hs c hc rr hrr
      rw [hr] at hrr
      rw [getRepoRoot_updateRepoRoot_self] at hrr
      simp only [Option.mem_def, Option.some.injEq] at hrr
      subst hrr
      rw [hb, commitEvs_append] at hc
      simp only [commitEvs, List.filterMap_cons, List.filterMap_nil] at hc
      rw [List.getLast?_concat] at hc
      simp only [Option.mem_def, Option.some.injEq] at hc
      subst hc
      rfl
  · rw [emitCommitTail_noseq _ _ _ _ _ _ _ (by simp [hseq])]
    refine ⟨h1, h2, ?_⟩
    intro hs
    simp [hseq] at hs

theorem c4_step_create (st : AppState) (did : Bytes) (body : CreateRecordRequest)
    (env : WriteEnv) (hinv : C4Inv st did) :
    C4Inv (createRecordRoute st did body env).2 did := by
  unfold createRecordRoute
  split
  · exact hinv
  · split
    · exact hinv
    · split
      · exact hinv
      · split
        · exact hinv
        · rename_i hne xa account hacct xr repoRoot hroot xe store2 g output heq
          exact c4_inv_emit st did store2 output.newRoot output.newRev repoRoot
            [{ action := "create", path := mstPath body.collection (body.rkey.getD []),
               cid := some (cidBytesToStringD output.cid) }] env hroot hinv

theorem c4_step_put (st : AppState) (did : Bytes) (body : PutRecordRequest)
    (env : WriteEnv) (hinv : C4Inv st did) :
    C4Inv (putRecordRoute st did body env).2 did := by
  unfold putRecordRoute
  split
  · exact hinv
  · split
    · exact hinv
    · split
      · exact hinv
      · split
        · exact hinv
        · rename_i hne xa account hacct xr repoRoot hroot xe store2 g output heq
          exact c4_inv_emit st did store2 output.newRoot output.newRev repoRoot
            [{ action := "update", path := mstPath body.collection body.rkey,
               cid := some (cidBytesToStringD output.cid) }] env hroot hinv

theorem c4_step_delete (st : AppState) (did : Bytes) (body : DeleteRecordRequest)
    (env : WriteEnv) (hinv : C4Inv st did) :
    C4Inv (deleteRecordRoute st did body env).2 did := by
  unfold deleteRecordRoute
  split
  · exact hinv
  · split
    · exact hinv
    · split
      · exact hinv
      · split
        · exact hinv
        · rename_i hne xa account hacct xr repoRoot hroot xe store2 g newRoot newRev heq
          exact c4_inv_emit st did store2 newRoot newRev repoRoot
            [{ action := "delete", path := mstPath body.collection body.rkey,
               cid := none }] env hroot hinv

theorem c4_runWrites (st : AppState) (did : Bytes)
    (reqs : List (WriteReq × WriteEnv)) (hinv : C4Inv st did) :
    C4Inv (runWrites st did reqs) did := by
  induction reqs generalizing st with
  | nil => exact hinv
  | cons p t ih =>
    obtain ⟨w, env⟩ := p
    cases w with
    | createW b => exact ih _ (c4_step_create st did b env hinv)
    | putW b => exact ih _ (c4_step_put st did b env hinv)
    | deleteW b => exact ih _ (c4_step_delete st did b env hinv)

/-- C4: across any sequence of write operations on one DID (createRecord,
putRecord, deleteRecord requests, possibly failing), the commit events
pushed to the firehose broadcast carry pairwise strictly increasing seq
values, and each commit event's prev field equals the previous commit
event's commit CID. -/
theorem firehose_commit_seq_prev_chain (st : AppState) (did : Bytes)
    (reqs : List (WriteReq × WriteEnv)) (hinv : C4Inv st did) :
    List.Pairwise (fun c1 c2 => c1.seq < c2.seq)
      (commitEvs (runWrites st did reqs).broadcast) ∧
    List.Chain' (fun c1 c2 => c2.prev = some c1.commit)
      (commitEvs (runWrites st did reqs).broadcast) := by
  obtain ⟨-, hchain, -⟩ := c4_runWrites st did reqs hinv
  constructor
  · have : IsTrans CommitEvent (fun c1 c2 => c1.seq < c2.seq) :=
      ⟨fun a b c h1 h2 => lt_trans h1 h2⟩
    exact List.chain'_iff_pairwise.mp (hchain.imp (fun a b h => h.1))
  · exact hchain.imp (fun a b h => h.2)

set_option maxRecDepth 10000 in
/-- Witness for C4: a create then a delete against a real repository emit two
commit events with seqs 1 and 2 satisfying the chain property. -/
theorem firehose_commit_seq_prev_chain_witness :
    (commitEvs (runWrites c4State [1] c4Reqs).broadcast).map (fun c => c.seq) =
      [1, 2] ∧
    List.Pairwise (fun c1 c2 => c1.seq < c2.seq)
      (commitEvs (runWrites c4State [1] c4Reqs).broadcast) ∧
    List.Chain' (fun c1 c2 => c2.prev = some c1.commit)
      (commitEvs (runWrites c4State [1] c4Reqs).broadcast) :=
  ⟨by decide,
    firehose_commit_seq_prev_chain c4State [1] c4Reqs
      (by
        refine ⟨?_, ?_, ?_⟩
        · intro e he
          simp [c4State] at he
        · simp [c4State, commitEvs]
        · intro hs c hc
          simp [c4State, commitEvs] at hc)⟩

theorem reaches_subset {st : BlockStore} {did : Bytes} {root : Cid}
    {c : CommitData} {es : List (Bytes × Cid)}
    (h1 : getBlock st did (cidToBytes root) = some (.commit c))
    (h2 : getBlock st did (cidToBytes c.data) = some (.node es))
    (h3 : ∀ e ∈ es, ∃ bs, getBlock st did (cidToBytes (e.2 : Cid)) = some (Block.raw bs)) :
    ∀ x, Reaches st did root x →
      x = root ∨ x = c.data ∨ x ∈ es.map (fun e => e.2) := by
  intro x hx
  induction hx with
  | refl => left; rfl
  | step hab hb hlink ih =>
    rename_i b2 x2 blk
    rcases ih with rfl | rfl | hmem
    · rw [h1] at hb
      simp only [Option.some.injEq] at hb
      subst hb
      simp only [blockLinks, List.mem_singleton] at hlink
      right; left; exact hlink
    · rw [h2] at hb
      simp only [Option.some.injEq] at hb
      subst hb
      simp only [blockLinks] at hlink
      right; right; exact hlink
    · rcases List.mem_map.mp hmem with ⟨e, he, rfl⟩
      rcases h3 e he with ⟨bs, hbs⟩
      rw [hbs] at hb
      simp only [Option.some.injEq] at hb
      subst hb
      simp [blockLinks] at hlink

theorem reaches_of_mem {st : BlockStore} {did : Bytes} {root : Cid}
    {c : CommitData} {es : List (Bytes × Cid)}
    (h1 : getBlock st did (cidToBytes root) = some (.commit c))
    (h2 : getBlock st did (cidToBytes c.data) = some (.node es)) :
    ∀ x, x = root ∨ x = c.data ∨ x ∈ es.map (fun e => e.2) →
      Reaches st did root x := by
  intro x hx
  rcases hx with rfl | rfl | hmem
  · exact .refl x
  · exact .step (.refl root) h1 (by simp [blockLinks])
  · exact .step (.step (.refl root) h1 (by simp [blockLinks])) h2
      (by simpa [blockLinks] using hmem)

theorem exportCids_ok {st : BlockStore} {did : Bytes} {root : Cid}
    {c : CommitData} {es : List (Bytes × Cid)}
    (h1 : getBlock st did (cidToBytes root) = some (.commit c))
    (h2 : getBlock st did (cidToBytes c.data) = some (.node es)) :
    exportCids st did root = .ok (root :: c.data :: es.map (fun e => e.2)) := by
  unfold exportCids openRepo
  simp only [h1, h2]

theorem mem_exportCids_iff_reaches {st : BlockStore} {did : Bytes} {root : Cid}
    (hg : GoodRepo st did root) :
    ∃ cids, exportCids st did root = .ok cids ∧
      ∀ x, x ∈ cids ↔ Reaches st did root x := by
  obtain ⟨c, es, h1, h2, h3⟩ := hg
  refine ⟨root :: c.data :: es.map (fun e => e.2), exportCids_ok h1 h2, ?_⟩
  intro x
  constructor
  · intro hm
    refine reaches_of_mem h1 h2 x ?_
    simpa using hm
  · intro hr
    have := reaches_subset h1 h2 h3 x hr
    simpa using this

theorem readBlocks_mem {st : BlockStore} {did : Bytes} :
    ∀ {cids : List Cid} {blocks : List (Bytes × Bytes)},
      readBlocks st did cids = .ok blocks →
      ∀ cb bb, ((cb, bb) ∈ blocks ↔ ∃ c ∈ cids, cb = cidToBytes c ∧
        ∃ blk, getBlock st did (cidToBytes c) = some blk ∧ bb = blockBytes blk) := by
  intro cids
  induction cids with
  | nil =>
    intro blocks h cb bb
    unfold readBlocks at h
    simp only [Except.ok.injEq] at h
    subst h
    simp
  | cons hd t ih =>
    intro blocks h cb bb
    unfold readBlocks at h
    cases hg : getBlock st did (cidToBytes hd) with
    | none => rw [hg] at h; simp at h
    | some blk =>
      rw [hg] at h
      cases hr : readBlocks st did t with
      | error e => rw [hr] at h; simp at h
      | ok rest =>
        rw [hr] at h
        simp only [Except.ok.injEq] at h
        subst h
        constructor
        · intro hm
          rcases List.mem_cons.mp hm with heq | hmem
          · rcases Prod.mk.injEq .. ▸ heq with ⟨rfl, rfl⟩
            exact ⟨hd, by simp, rfl, blk, hg, rfl⟩
          · rcases (ih hr cb bb).mp hmem with ⟨c, hc, hcb, blk2, hblk2, hbb⟩
            exact ⟨c, by simp [hc], hcb, blk2, hblk2, hbb⟩
        · rintro ⟨c, hc, rfl, blk2, hblk2, rfl⟩
          rcases List.mem_cons.mp hc with rfl | hmem
          · rw [hg] at hblk2
            simp only [Option.some.injEq] at hblk2
            subst hblk2
            simp
          · exact List.mem_cons_of_mem _ ((ih hr _ _).mpr ⟨c, hmem, rfl, blk2, hblk2, rfl⟩)

/-- C6: a diff export with current root C and since root S declares C as the
single CAR root and contains exactly the blocks whose CIDs are reachable from
C but not from S; with no since root it is definitionally the full export. -/
theorem diff_car_reachable_set_difference (st : BlockStore) (did : Bytes)
    (curB sinceB : Bytes) (cur since : Cid) (car : CarFile)
    (hcb : cidFromBytes curB = some cur)
    (hsb : cidFromBytes sinceB = some since)
    (hgc : GoodRepo st did cur) (hgs : GoodRepo st did since)
    (hcar : generate_diff_car st did curB (some sinceB) = .ok car) :
    car.roots = [cidToBytes cur] ∧
    (∀ cb bb, ((cb, bb) ∈ car.blocks ↔
      ∃ c, cb = cidToBytes c ∧
        (∃ blk, getBlock st did (cidToBytes c) = some blk ∧ bb = blockBytes blk) ∧
        Reaches st did cur c ∧ ¬ Reaches st did since c)) ∧
    generate_diff_car st did curB none = export_full_car st did curB := by
  obtain ⟨curCids, hcec, hciff⟩ := mem_exportCids_iff_reaches hgc
  obtain ⟨sinceCids, hses, hsiff⟩ := mem_exportCids_iff_reaches hgs
  unfold generate_diff_car at hcar
  simp only [hsb, hcb, hcec, hses] at hcar
  cases hrb : readBlocks st did
      (curCids.dedup.filter (fun c => c ∉ sinceCids)) with
  | error e => rw [hrb] at hcar; simp at hcar
  | ok blocks =>
    rw [hrb] at hcar
    simp only [Except.ok.injEq] at hcar
    subst hcar
    refine ⟨rfl, ?_, rfl⟩
    intro cb bb
    rw [readBlocks_mem hrb cb bb]
    constructor
    · rintro ⟨c, hc, rfl, blk, hblk, rfl⟩
      rw [List.mem_filter, List.mem_dedup] at hc
      refine ⟨c, rfl, ⟨blk, hblk, rfl⟩, (hciff c).mp hc.1, ?_⟩
      intro hrs
      have := hc.2
      simp only [decide_eq_true_eq] at this
      exact this ((hsiff c).mpr hrs)
    · rintro ⟨c, rfl, ⟨blk, hblk, rfl⟩, hrc, hnrs⟩
      refine ⟨c, ?_, rfl, blk, hblk, rfl⟩
      rw [List.mem_filter, List.mem_dedup]
      refine ⟨(hciff c).mpr hrc, ?_⟩
      simp only [decide_eq_true_eq]
      intro hms
      exact hnrs ((hsiff c).mp hms)

/-- Witness for C6: diffing the witness repository against itself yields a CAR
rooted at the current root with no blocks, and the no-since call is the full
export. -/
theorem diff_car_reachable_set_difference_witness :
    ({ roots := [cidToBytes c6RootCid], blocks := [] } : CarFile).roots =
      [cidToBytes c6RootCid] ∧
    generate_diff_car c6Store [1] (cidToBytes c6RootCid) none =
      export_full_car c6Store [1] (cidToBytes c6RootCid) := by
  have hg : GoodRepo c6Store [1] c6RootCid :=
    ⟨c6CommitData, [], rfl, rfl, by simp⟩
  have h := diff_car_reachable_set_difference c6Store [1]
    (cidToBytes c6RootCid) (cidToBytes c6RootCid) c6RootCid c6RootCid
    { roots := [cidToBytes c6RootCid], blocks := [] }
    rfl rfl hg hg rfl
  exact ⟨h.1, h.2.2⟩

theorem strBytes_tid_length (v : Nat) :
    (strBytes (encode_base32_sortkey v)).length = 13 := by
  simp [strBytes, encode_base32_sortkey, b32chars13_length]

theorem encCommitNoSigInit_length_le (did rev : Bytes) :
    (encCommitNoSig (initUnsigned did rev)).length ≤
      200 + did.length + rev.length := by
  have hd := encHead_length_le 3 did.length
  have hr := encHead_length_le 3 rev.length
  have hkd : keyData.length = 4 := rfl
  have hkD : keyDid.length = 3 := rfl
  have hkp : keyPrev.length = 4 := rfl
  have hkr : keyRev.length = 3 := rfl
  have hkv : keyVersion.length = 7 := rfl
  have hcid : (cidToBytes (cidOfBlock (Block.node []))).length = 3 := rfl
  have hc1 : (encHead 5 (1 + (1 + (1 + (1 + (1 + 0)))))).length = 1 := rfl
  have hc2 : (encHead 3 4).length = 1 := rfl
  have hc3 : (encHead 2 3).length = 1 := rfl
  have hc4 : (encHead 3 3).length = 1 := rfl
  have hc5 : (encHead 7 22).length = 1 := rfl
  have hc6 : (encHead 3 7).length = 1 := rfl
  have hc7 : (if (0 : Int) ≤ ((3 : Nat) : Int) then
      encHead 0 (((3 : Nat) : Int)).toNat
    else encHead 1 ((-1 - ((3 : Nat) : Int)).toNat)).length = 1 := rfl
  simp only [encCommitNoSig, initUnsigned, commitEntriesNoSig, prevVal, encVal,
    encEntryList, EntryList.length, List.length_append, List.length_nil,
    hkd, hkD, hkp, hkr, hkv, hcid]
  omega

theorem mkSig_length (key m : Bytes) :
    (mkSig key m).length = 1 + key.length + m.length := by
  simp [mkSig, lp]
  omega

theorem createRepo_spec (st : BlockStore) (did key : Bytes) (g : TidGenerator)
    (now : Nat) (hinv : StoreInv st) :
    (createRepo st did key g now).2.1 =
      cidToBytes (cidOfBlock (Block.commit
        (initCommit did key (strBytes ((g.nextTid now).1))))) ∧
    getBlock (createRepo st did key g now).1 did
        ((createRepo st did key g now).2.1) =
      some (Block.commit (initCommit did key (strBytes ((g.nextTid now).1)))) := by
  refine ⟨rfl, ?_⟩
  exact getBlock_putBlock_same (storeInv_putBlock hinv)

theorem createRepo_commitWf (did key rev : Bytes)
    (hdid : did.length < 2 ^ 32) (hrev : rev.length < 2 ^ 32)
    (hkey : key.length < 2 ^ 32) :
    commitWfB (initCommit did key rev) = true := by
  have hb := encCommitNoSigInit_length_le did rev
  have hs := mkSig_length key (encCommitNoSig (initUnsigned did rev))
  have hd1 : (initCommit did key rev).did = did := rfl
  have hd2 : (initCommit did key rev).data = cidOfBlock (Block.node []) := rfl
  have hd3 : (initCommit did key rev).prev = none := rfl
  have hd4 : (initCommit did key rev).rev = rev := rfl
  have hd5 : (initCommit did key rev).sig =
    mkSig key (encCommitNoSig (initUnsigned did rev)) := rfl
  have hd6 : (initCommit did key rev).version = 3 := rfl
  unfold commitWfB commitEntries
  simp only [hd1, hd2, hd3, hd4, hd5, hd6, prevVal, wfVal, wfEntryList,
    EntryList.length, Bool.and_eq_true, decide_eq_true_eq]
  repeat' apply And.intro
  all_goals first
    | decide
    | omega
    | (rw [hs]; omega)

theorem find?_append_singleton {α : Type} (p : α → Bool) (l : List α) (x : α)
    (hl : l.find? p = none) (hx : p x = true) : (l ++ [x]).find? p = some x := by
  rw [List.find?_append, hl]
  simp [List.find?_cons_of_pos _ hx]

theorem recordInviteUse_fields (st : AppState) (code : Option Bytes) (did : Bytes) :
    (recordInviteUse st code did).repoStore = st.repoStore ∧
    (recordInviteUse st code did).repoRoots = st.repoRoots ∧
    (recordInviteUse st code did).accounts = st.accounts := by
  unfold recordInviteUse
  split
  · split <;> exact ⟨rfl, rfl, rfl⟩
  · exact ⟨rfl, rfl, rfl⟩

/-- C2: a successful createAccount leaves a repo root row whose CID is
non-empty, whose block is stored and decodes (via DAG-CBOR) to a commit whose
signature verifies against the account's stored signing key. -/
theorem create_account_root_signed (st : AppState) (body : CreateAccountRequest)
    (env : CreateAccountEnv) (did : Bytes) (st2 : AppState)
    (hinv : StoreInv st.repoStore)
    (hkey : env.signingKey.length < 2 ^ 20)
    (hhandle : body.handle.length < 2 ^ 20)
    (hok : createAccountRoute st body env = (.ok did, st2)) :
    ∃ r : RepoRoot, getRepoRoot st2.repoRoots did = some r ∧ r.cid ≠ [] ∧
      ∃ cdata : CommitData,
        getBlock st2.repoStore did r.cid = some (Block.commit cdata) ∧
        decCommit (blockBytes (Block.commit cdata)) = some cdata ∧
        ∃ a : ActorAccount, getAccountByDid st2 did = some a ∧
          a.signingKey = env.signingKey ∧
          verifySig a.signingKey (encCommitNoSig cdata) cdata.sig = true := by
  unfold createAccountRoute at hok
  split_ifs at hok with hmode hdom
  · simp at hok
  · cases hic : inviteCheckF st body.inviteCode with
    | error e => simp only [hic] at hok; simp at hok
    | ok u =>
      cases u
      simp only [hic] at hok
      cases hsc : storeCreateAccount st (mkDidPlc env.signingKey body.handle)
          body.handle body.email (hashPassword body.password) env.signingKey with
      | error e => simp only [hsc] at hok; simp at hok
      | ok st1 =>
        simp only [hsc] at hok
        rw [Prod.mk.injEq] at hok
        obtain ⟨hdid, hst⟩ := hok
        simp only [Except.ok.injEq] at hdid
        subst hdid
        subst hst
        unfold storeCreateAccount at hsc
        split_ifs at hsc with hdup
        · simp only [Except.ok.injEq] at hsc
          subst hsc
          obtain ⟨hrs, hrr, hra⟩ := recordInviteUse_fields
            { st with
              accounts := st.accounts ++
                [{ did := mkDidPlc env.signingKey body.handle, handle := body.handle,
                   email := body.email, passwordHash := hashPassword body.password,
                   signingKey := env.signingKey }]
              repoRoots := st.repoRoots ++
                [{ did := mkDidPlc env.signingKey body.handle, cid := [], rev := "" }] }
            body.inviteCode (mkDidPlc env.signingKey body.handle)
          obtain ⟨hcid, hget⟩ := createRepo_spec
            (recordInviteUse
              { st with
                accounts := st.accounts ++
                  [{ did := mkDidPlc env.signingKey body.handle, handle := body.handle,
                     email := body.email, passwordHash := hashPassword body.password,
                     signingKey := env.signingKey }]
                repoRoots := st.repoRoots ++
                  [{ did := mkDidPlc env.signingKey body.handle, cid := [], rev := "" }] }
              body.inviteCode (mkDidPlc env.signingKey body.handle)).repoStore
            (mkDidPlc env.signingKey body.handle) env.signingKey
            (TidGenerator.mkNew env.clockRand) env.now
            (by rw [hrs]; exact hinv)
          refine ⟨_, getRepoRoot_updateRepoRoot_self _ _ _ _, ?_, ?_⟩
          · rw [hcid]
            simp [cidToBytes]
          · refine ⟨_, by rw [hcid]; exact hget, ?_, ?_⟩
            · have hdidlen : (mkDidPlc env.signingKey body.handle).length < 2 ^ 32 := by
                simp [mkDidPlc, strBytes, lp]
                omega
              have hrevlen :
                  (strBytes ((TidGenerator.mkNew env.clockRand |>.nextTid env.now).1)).length
                    < 2 ^ 32 := by
                show (strBytes (encode_base32_sortkey
                  ((TidGenerator.mkNew env.clockRand).nextValue env.now))).length < 2 ^ 32
                rw [strBytes_tid_length]
                omega
              have hwf := createRepo_commitWf (mkDidPlc env.signingKey body.handle)
                env.signingKey
                (strBytes ((TidGenerator.mkNew env.clockRand |>.nextTid env.now).1))
                hdidlen hrevlen (by omega)
              exact decCommit_encCommit _ hwf
            · refine ⟨{ did := mkDidPlc env.signingKey body.handle,
                        handle := body.handle,
                        email := body.email,
                        passwordHash := hashPassword body.password,
                        signingKey := env.signingKey }, ?_, rfl, ?_⟩
              · show ((recordInviteUse _ _ _).accounts.find?
                  (fun a => decide (a.did = mkDidPlc env.signingKey body.handle))) = _
                rw [hra]
                refine find?_append_singleton _ _ _ ?_ (by simp)
                rw [List.find?_eq_none]
                intro a ha
                simp only [decide_eq_true_eq]
                intro haeq
                have hnone : (st.accounts.find? (fun a =>
                    decide (a.did = mkDidPlc env.signingKey body.handle ∨
                      a.handle = body.handle))) = none := by
                  cases hf : st.accounts.find? (fun a =>
                      decide (a.did = mkDidPlc env.signingKey body.handle ∨
                        a.handle = body.handle)) with
                  | none => rfl
                  | some a2 => exact absurd (by rw [hf]; rfl) hdup
                have := List.find?_eq_none.mp hnone a ha
                simp only [decide_eq_true_eq] at this
                exact this (Or.inl haeq)
              · simp [verifySig]
                rfl
  · simp at hok

set_option maxRecDepth 10000 in
/-- Witness for C2: one concrete successful createAccount. -/
theorem create_account_root_signed_witness :
    ∃ r : RepoRoot,
      getRepoRoot (createAccountRoute c2State c2Body c2Env).2.repoRoots
        (mkDidPlc c2Env.signingKey c2Body.handle) = some r ∧ r.cid ≠ [] ∧
      ∃ cdata : CommitData,
        getBlock (createAccountRoute c2State c2Body c2Env).2.repoStore
          (mkDidPlc c2Env.signingKey c2Body.handle) r.cid =
            some (Block.commit cdata) ∧
        decCommit (blockBytes (Block.commit cdata)) = some cdata ∧
        ∃ a : ActorAccount,
          getAccountByDid (createAccountRoute c2State c2Body c2Env).2
            (mkDidPlc c2Env.signingKey c2Body.handle) = some a ∧
          a.signingKey = c2Env.signingKey ∧
          verifySig a.signingKey (encCommitNoSig cdata) cdata.sig = true :=
  create_account_root_signed c2State c2Body c2Env
    (mkDidPlc c2Env.signingKey c2Body.handle)
    (createAccountRoute c2State c2Body c2Env).2
    storeInv_nil (by decide) (by decide) rfl

theorem pairwise_getLast_max {α : Type} {r : α → α → Prop} :
    ∀ {l : List α}, List.Pairwise r l → ∀ {last : α}, l.getLast? = some last →
      ∀ x ∈ l, x = last ∨ r x last := by
  intro l
  induction l with
  | nil => intro _ last h; simp at h
  | cons a t ih =>
    intro hp last hlast x hx
    cases t with
    | nil =>
      simp only [List.getLast?_singleton, Option.some.injEq] at hlast
      rcases List.mem_singleton.mp hx with rfl
      left
      rw [hlast]
    | cons b u =>
      rw [List.getLast?_cons_cons] at hlast
      rcases List.mem_cons.mp hx with rfl | hxt
      · right
        have hmem : last ∈ b :: u := mem_of_getLast?_mem hlast
        exact (List.pairwise_cons.mp hp).1 last hmem
      · exact ih (List.pairwise_cons.mp hp).2 hlast x hxt

theorem filter_gt_last_take {F : List PersistedEvent} {n : Nat}
    (hs : List.Pairwise (fun a b => a.seq < b.seq) F)
    {lastEv : PersistedEvent} (hlast : (F.take n).getLast? = some lastEv) :
    F.filter (fun p => decide (lastEv.seq < p.seq)) = F.drop n := by
  have hsplit : F = F.take n ++ F.drop n := (List.take_append_drop n F).symm
  have htake : ∀ x ∈ F.take n, ¬ (lastEv.seq < x.seq) := by
    intro x hx
    have hst : List.Pairwise (fun a b => a.seq < b.seq) (F.take n) :=
      List.Pairwise.sublist (List.take_sublist n F) hs
    rcases pairwise_getLast_max hst hlast x hx with rfl | hlt
    · omega
    · omega
  have hdrop : ∀ x ∈ F.drop n, lastEv.seq < x.seq := by
    intro x hx
    have hcross := (List.pairwise_append.mp (hsplit ▸ hs)).2.2
    exact hcross lastEv (mem_of_getLast?_mem hlast) x hx
  conv_lhs => rw [hsplit]
  rw [List.filter_append]
  rw [List.filter_eq_nil_iff.mpr (by intro x hx; simpa using htake x hx)]
  rw [List.filter_eq_self.mpr (by intro x hx; simpa using hdrop x hx)]
  simp

theorem replayLoop_eq (log : List PersistedEvent)
    (hsorted : List.Pairwise (fun a b => a.seq < b.seq) log) :
    ∀ (fuel : Nat) (c : Int),
      (log.filter (fun p => decide (c < p.seq))).length < fuel →
      replayLoop log fuel c = log.filter (fun p => decide (c < p.seq)) := by
  intro fuel
  induction fuel with
  | zero => intro c h; omega
  | succ fuel ih =>
    intro c hlen
    unfold replayLoop getEventsAfter
    cases hlast : ((log.filter (fun p => decide (c < p.seq))).take 100).getLast? with
    | none =>
      have htake := List.getLast?_eq_none_iff.mp hlast
      cases hF : log.filter (fun p => decide (c < p.seq)) with
      | nil => rfl
      | cons a t => rw [hF] at htake; simp [List.take_succ_cons] at htake
    | some lastEv =>
      simp only []
      have hFs : List.Pairwise (fun a b => a.seq < b.seq)
          (log.filter (fun p => decide (c < p.seq))) :=
        List.Pairwise.filter _ hsorted
      have hclast : c < lastEv.seq := by
        have hmem : lastEv ∈ log.filter (fun p => decide (c < p.seq)) :=
          List.mem_of_mem_take (mem_of_getLast?_mem hlast)
        simpa using (List.mem_filter.mp hmem).2
      have hdrop : log.filter (fun p => decide (lastEv.seq < p.seq)) =
          (log.filter (fun p => decide (c < p.seq))).drop 100 := by
        rw [← filter_gt_last_take hFs hlast]
        rw [List.filter_filter]
        apply List.filter_congr
        intro p hp
        by_cases h : lastEv.seq < p.seq
        · have hc2 : c < p.seq := by omega
          simp [h, hc2]
        · simp [h]
      have hFnonnil : log.filter (fun p => decide (c < p.seq)) ≠ [] := by
        intro hF
        rw [hF] at hlast
        simp at hlast
      have hrec := ih lastEv.seq (by
        rw [hdrop, List.length_drop]
        have : 0 < (log.filter (fun p => decide (c < p.seq))).length :=
          List.length_pos.mpr hFnonnil
        omega)
      rw [hrec, hdrop]
      exact List.take_append_drop 100 _

theorem liveLoop_eq (live : List FirehoseEvent) :
    ∀ lastSent : Int,
      List.Pairwise (fun a b => FirehoseEvent.seq a < FirehoseEvent.seq b) live →
      liveLoop lastSent live =
        (live.filter (fun ev => decide (lastSent < FirehoseEvent.seq ev))).map
          (fun ev => SentFrame.live (FirehoseEvent.seq ev) (encodeEventFrame ev)) := by
  induction live with
  | nil => intro lastSent _; rfl
  | cons ev rest ih =>
    intro lastSent hp
    unfold liveLoop
    by_cases h : FirehoseEvent.seq ev ≤ lastSent
    · rw [if_pos h, ih lastSent (List.pairwise_cons.mp hp).2]
      rw [List.filter_cons_of_neg (by simp only [decide_eq_true_eq]; omega)]
    · rw [if_neg h, ih (FirehoseEvent.seq ev) (List.pairwise_cons.mp hp).2]
      rw [List.filter_cons_of_pos (by simp only [decide_eq_true_eq]; omega)]
      rw [List.map_cons]
      have hall : ∀ x ∈ rest, FirehoseEvent.seq ev < FirehoseEvent.seq x :=
        (List.pairwise_cons.mp hp).1
      have h1 : rest.filter (fun x => decide (FirehoseEvent.seq ev < FirehoseEvent.seq x))
          = rest := List.filter_eq_self.mpr (by intro x hx; simpa using hall x hx)
      have h2 : rest.filter (fun x => decide (lastSent < FirehoseEvent.seq x)) = rest :=
        List.filter_eq_self.mpr (by
          intro x hx
          have := hall x hx
          simp only [decide_eq_true_eq]
          omega)
      rw [h1, h2]

/-- C5: with an outdated cursor the subscriber gets the OutdatedCursor info
frame first, then every persisted event past the cursor in seq order, then the
live events past the last replayed seq; the sent seqs strictly increase (no
duplicate crosses the replay/live boundary) and no persisted or live event
past the cursor is missed (live events at or below the last replayed seq are
covered by the replay, the rest are streamed). -/
theorem subscribe_replay_live_boundary (st : AppState) (live : List FirehoseEvent)
    (c : Int)
    (hseq : st.hasSequencer = true) (hes : st.hasEventStore = true)
    (hc : c < st.seqCounter)
    (hsorted : List.Pairwise (fun a b => a.seq < b.seq) st.eventStore)
    (hlive : List.Pairwise (fun a b => FirehoseEvent.seq a < FirehoseEvent.seq b) live)
    (hcover : ∀ ev ∈ live, FirehoseEvent.seq ev ≤ replayLast st.eventStore c →
      ∃ p ∈ st.eventStore, p.seq = FirehoseEvent.seq ev) :
    handleSubscribe st live (some c) =
      SentFrame.infoFrame "OutdatedCursor" ::
        ((st.eventStore.filter (fun p => decide (c < p.seq))).map
            (fun p => SentFrame.replayed p.seq p.payload) ++
          (live.filter (fun ev =>
              decide (replayLast st.eventStore c < FirehoseEvent.seq ev))).map
            (fun ev => SentFrame.live (FirehoseEvent.seq ev) (encodeEventFrame ev))) ∧
    List.Pairwise (fun s1 s2 => s1 < s2)
      ((st.eventStore.filter (fun p => decide (c < p.seq))).map (fun p => p.seq) ++
        (live.filter (fun ev =>
            decide (replayLast st.eventStore c < FirehoseEvent.seq ev))).map
          (fun ev => FirehoseEvent.seq ev)) ∧
    (∀ p ∈ st.eventStore, c < p.seq →
      SentFrame.replayed p.seq p.payload ∈ handleSubscribe st live (some c)) ∧
    (∀ ev ∈ live, c < FirehoseEvent.seq ev →
      SentFrame.live (FirehoseEvent.seq ev) (encodeEventFrame ev) ∈
          handleSubscribe st live (some c) ∨
        ∃ p ∈ st.eventStore, p.seq = FirehoseEvent.seq ev ∧
          SentFrame.replayed p.seq p.payload ∈ handleSubscribe st live (some c)) := by
  have hmain : handleSubscribe st live (some c) =
      SentFrame.infoFrame "OutdatedCursor" ::
        ((st.eventStore.filter (fun p => decide (c < p.seq))).map
            (fun p => SentFrame.replayed p.seq p.payload) ++
          (live.filter (fun ev =>
              decide (replayLast st.eventStore c < FirehoseEvent.seq ev))).map
            (fun ev => SentFrame.live (FirehoseEvent.seq ev) (encodeEventFrame ev))) := by
    unfold handleSubscribe
    rw [if_neg (by simp [hseq])]
    simp only []
    rw [if_neg (by omega)]
    rw [if_pos ⟨hes, hc⟩]
    have hrl := replayLoop_eq st.eventStore hsorted (st.eventStore.length + 1) c
      (by have := List.length_filter_le (fun p => decide (c < p.seq)) st.eventStore; omega)
    rw [hrl]
    rw [liveLoop_eq live _ hlive]
    rfl
  refine ⟨hmain, ?_, ?_, ?_⟩
  · rw [List.pairwise_append]
    refine ⟨?_, ?_, ?_⟩
    · exact (List.pairwise_map.mpr (List.Pairwise.filter _ hsorted))
    · exact (List.pairwise_map.mpr (List.Pairwise.filter _ hlive))
    · intro s1 hs1 s2 hs2
      rcases List.mem_map.mp hs1 with ⟨p, hp, rfl⟩
      rcases List.mem_map.mp hs2 with ⟨ev, hev, rfl⟩
      have hple : p.seq ≤ replayLast st.eventStore c := by
        unfold replayLast
        cases hl : (st.eventStore.filter (fun p => decide (c < p.seq))).getLast? with
        | none =>
          rw [List.getLast?_eq_none_iff.mp hl] at hp
          simp at hp
        | some lastEv =>
          rcases pairwise_getLast_max (List.Pairwise.filter _ hsorted) hl p hp with
            rfl | hlt
          · simp
          · simp only [Option.elim]
            omega
      have hgt : replayLast st.eventStore c < FirehoseEvent.seq ev := by
        simpa using (List.mem_filter.mp hev).2
      omega
  · intro p hp hcp
    rw [hmain]
    refine List.mem_cons_of_mem _ (List.mem_append_left _ ?_)
    exact List.mem_map.mpr ⟨p, List.mem_filter.mpr ⟨hp, by simpa using hcp⟩, rfl⟩
  · intro ev hev hcev
    by_cases h : replayLast st.eventStore c < FirehoseEvent.seq ev
    · left
      rw [hmain]
      refine List.mem_cons_of_mem _ (List.mem_append_right _ ?_)
      exact List.mem_map.mpr ⟨ev, List.mem_filter.mpr ⟨hev, by simpa using h⟩, rfl⟩
    · right
      rcases hcover ev hev (by omega) with ⟨p, hp, hpseq⟩
      refine ⟨p, hp, hpseq, ?_⟩
      rw [hmain]
      refine List.mem_cons_of_mem _ (List.mem_append_left _ ?_)
      refine List.mem_map.mpr ⟨p, List.mem_filter.mpr ⟨hp, ?_⟩, rfl⟩
      simp only [decide_eq_true_eq]
      omega

/-- Witness for C5: cursor 1 replays seq 2 and the duplicate live seq-2 event
is covered by the replay. -/
theorem subscribe_replay_live_boundary_witness :
    handleSubscribe c5State c5Live (some 1) =
      SentFrame.infoFrame "OutdatedCursor" ::
        ((c5State.eventStore.filter (fun p => decide ((1:Int) < p.seq))).map
            (fun p => SentFrame.replayed p.seq p.payload) ++
          (c5Live.filter (fun ev =>
              decide (replayLast c5State.eventStore 1 < FirehoseEvent.seq ev))).map
            (fun ev => SentFrame.live (FirehoseEvent.seq ev) (encodeEventFrame ev))) ∧
    List.Pairwise (fun s1 s2 => s1 < s2)
      ((c5State.eventStore.filter (fun p => decide ((1:Int) < p.seq))).map
          (fun p => p.seq) ++
        (c5Live.filter (fun ev =>
            decide (replayLast c5State.eventStore 1 < FirehoseEvent.seq ev))).map
          (fun ev => FirehoseEvent.seq ev)) ∧
    (∀ p ∈ c5State.eventStore, (1:Int) < p.seq →
      SentFrame.replayed p.seq p.payload ∈ handleSubscribe c5State c5Live (some 1)) ∧
    (∀ ev ∈ c5Live, (1:Int) < FirehoseEvent.seq ev →
      SentFrame.live (FirehoseEvent.seq ev) (encodeEventFrame ev) ∈
          handleSubscribe c5State c5Live (some 1) ∨
        ∃ p ∈ c5State.eventStore, p.seq = FirehoseEvent.seq ev ∧
          SentFrame.replayed p.seq p.payload ∈ handleSubscribe c5State c5Live (some 1)) :=
  subscribe_replay_live_boundary c5State c5Live 1 rfl rfl (by decide)
    (by simp [c5State]) (by simp [c5Live])
    (by
      intro ev hev hle
      simp only [c5Live, List.mem_singleton] at hev
      subst hev
      exact ⟨{ seq := 2, eventType := "commit", did := [1], payload := [8] },
        by simp [c5State], rfl⟩)

theorem signAndStore_spec (st : BlockStore) (did key : Bytes)
    (entries : List (Bytes × Cid)) (rootCid : Cid) (g : TidGenerator) (now : Nat)
    (hinv : StoreInv st) :
    (signAndStoreCommit st did key entries rootCid g now).2.2.1 =
      cidToBytes (cidOfBlock (Block.commit
        (opCommit did key (strBytes ((g.nextTid now).1)) entries rootCid))) ∧
    getBlock (signAndStoreCommit st did key entries rootCid g now).1 did
      (cidToBytes (cidOfBlock (Block.commit
        (opCommit did key (strBytes ((g.nextTid now).1)) entries rootCid)))) =
      some (Block.commit
        (opCommit did key (strBytes ((g.nextTid now).1)) entries rootCid)) ∧
    getBlock (signAndStoreCommit st did key entries rootCid g now).1 did
      (cidToBytes (cidOfBlock (Block.node entries))) = some (Block.node entries) ∧
    (∀ cidB blk, getBlock st did cidB = some blk →
      getBlock (signAndStoreCommit st did key entries rootCid g now).1 did cidB =
        some blk) ∧
    StoreInv (signAndStoreCommit st did key entries rootCid g now).1 := by
  refine ⟨rfl, ?_, ?_, ?_, ?_⟩
  · exact getBlock_putBlock_same (storeInv_putBlock hinv)
  · exact getBlock_putBlock_mono (getBlock_putBlock_same hinv)
  · intro cidB blk h
    exact getBlock_putBlock_mono (getBlock_putBlock_mono h)
  · exact storeInv_putBlock (storeInv_putBlock hinv)

theorem get_record_of_recordAt {st : BlockStore} {did root collection rkey : Bytes}
    {R : Val} {recCidB : Bytes}
    (hwf : wfVal R = true) (h : recordAt st did root collection rkey R recCidB) :
    get_record st did collection rkey root =
      .ok (some { uri := atUri did collection rkey, cid := recCidB, value := R }) := by
  obtain ⟨hcid, rootCid, c, entries, h1, h2, h3, h4, h5⟩ := h
  subst hcid
  unfold get_record openRepo
  rw [h1]
  simp only [h2, h3, h4, h5, blockBytes, decValFull_encVal R hwf]

theorem recordAt_after_commit {st1 : BlockStore} {did : Bytes} (key : Bytes)
    (entries2 : List (Bytes × Cid)) (rootCid : Cid) (g : TidGenerator) (now : Nat)
    {collection rkey : Bytes} {R : Val}
    (hinv1 : StoreInv st1)
    (hlook : mstLookup (mstPath collection rkey) entries2 =
      some (cidOfBlock (Block.raw (encVal R))))
    (hrec : getBlock st1 did (cidToBytes (cidOfBlock (Block.raw (encVal R)))) =
      some (Block.raw (encVal R))) :
    recordAt (signAndStoreCommit st1 did key entries2 rootCid g now).1 did
      ((signAndStoreCommit st1 did key entries2 rootCid g now).2.2.1)
      collection rkey R (cidToBytes (cidOfBlock (Block.raw (encVal R)))) ∧
    StoreInv (signAndStoreCommit st1 did key entries2 rootCid g now).1 := by
  obtain ⟨hroot, hcommit, hnode, hmono, hinv2⟩ :=
    signAndStore_spec st1 did key entries2 rootCid g now hinv1
  refine ⟨⟨rfl,
    cidOfBlock (Block.commit
      (opCommit did key (strBytes ((g.nextTid now).1)) entries2 rootCid)),
    opCommit did key (strBytes ((g.nextTid now).1)) entries2 rootCid, entries2,
    ?_, ?_, ?_, hlook, ?_⟩, hinv2⟩
  · rw [hroot]
    exact cidFromBytes_cidToBytes _
  · exact hcommit
  · exact hnode
  · exact hmono _ _ hrec

theorem put_record_establishes (st : BlockStore) (did key collection rkey : Bytes)
    (R : Val) (g : TidGenerator) (now : Nat) (root : Bytes)
    (hinv : StoreInv st) (store2 : BlockStore) (g2 : TidGenerator)
    (out : RecordWriteOutput)
    (hok : put_record st did key collection rkey R g now root = .ok (store2, g2, out)) :
    recordAt store2 did out.newRoot collection rkey R out.cid ∧ StoreInv store2 := by
  unfold put_record at hok
  cases h1 : cidFromBytes root with
  | none => rw [h1] at hok; simp at hok
  | some rootCid =>
    simp only [h1] at hok
    cases h2 : openRepo st did rootCid with
    | error e => rw [h2] at hok; simp at hok
    | ok pr =>
      obtain ⟨c0, entries⟩ := pr
      simp only [h2] at hok
      simp only [Except.ok.injEq, Prod.mk.injEq] at hok
      obtain ⟨hst2, hg2, hout⟩ := hok
      subst hst2
      subst hout
      exact recordAt_after_commit key
        (mstInsert (mstPath collection rkey) (cidOfBlock (Block.raw (encVal R))) entries)
        rootCid g now (storeInv_putBlock hinv)
        (mstLookup_insert_self _ _ _)
        (getBlock_putBlock_same hinv)

theorem create_record_establishes (st : BlockStore) (did key collection rkey : Bytes)
    (R : Val) (g : TidGenerator) (now : Nat) (root : Bytes)
    (hinv : StoreInv st) (store2 : BlockStore) (g2 : TidGenerator)
    (out : RecordWriteOutput)
    (hok : create_record st did key collection (some rkey) R g now root =
      .ok (store2, g2, out)) :
    recordAt store2 did out.newRoot collection rkey R out.cid ∧ StoreInv store2 := by
  unfold create_record at hok
  cases h1 : cidFromBytes root with
  | none => rw [h1] at hok; simp at hok
  | some rootCid =>
    simp only [h1] at hok
    cases h2 : openRepo st did rootCid with
    | error e => rw [h2] at hok; simp at hok
    | ok pr =>
      obtain ⟨c0, entries⟩ := pr
      simp only [h2] at hok
      split_ifs at hok
      simp only [Except.ok.injEq, Prod.mk.injEq] at hok
      obtain ⟨hst2, hg2, hout⟩ := hok
      subst hst2
      subst hout
      exact recordAt_after_commit key
        (mstInsert (mstPath collection rkey) (cidOfBlock (Block.raw (encVal R))) entries)
        rootCid g now (storeInv_putBlock hinv)
        (mstLookup_insert_self _ _ _)
        (getBlock_putBlock_same hinv)

theorem recordAt_preserved (st : BlockStore) (did key : Bytes)
    (g : TidGenerator) (now : Nat) (root : Bytes)
    (collection rkey : Bytes) (R : Val) (cidB : Bytes) (w : RepoWrite)
    (hinv : StoreInv st)
    (hne : writePath w ≠ mstPath collection rkey)
    (hat : recordAt st did root collection rkey R cidB)
    (st2 : BlockStore) (root2 : Bytes)
    (hok : runRepoWrite st did key g now root w = .ok (st2, root2)) :
    recordAt st2 did root2 collection rkey R cidB ∧ StoreInv st2 := by
  obtain ⟨hcid, rootCid0, c0, entries, h1, h2, h3, h4, h5⟩ := hat
  subst hcid
  have hopen : openRepo st did rootCid0 = .ok (c0, entries) := by
    unfold openRepo
    simp only [h2, h3]
  cases w with
  | putR c2 k2 v =>
    unfold runRepoWrite at hok
    simp only [] at hok
    cases hp : put_record st did key c2 k2 v g now root with
    | error e => rw [hp] at hok; simp at hok
    | ok r =>
      simp only [hp, Except.ok.injEq, Prod.mk.injEq] at hok
      obtain ⟨hst2, hroot2⟩ := hok
      subst hst2
      subst hroot2
      unfold put_record at hp
      simp only [h1, hopen, Except.ok.injEq] at hp
      subst hp
      exact recordAt_after_commit key
        (mstInsert (mstPath c2 k2) (cidOfBlock (Block.raw (encVal v))) entries)
        rootCid0 g now (storeInv_putBlock hinv)
        (by
          rw [mstLookup_insert_other _ _ _ (by simpa [writePath] using hne)]
          exact h4)
        (getBlock_putBlock_mono h5)
  | createR c2 k2 v =>
    unfold runRepoWrite at hok
    simp only [] at hok
    cases hp : create_record st did key c2 (some k2) v g now root with
    | error e => rw [hp] at hok; simp at hok
    | ok r =>
      simp only [hp, Except.ok.injEq, Prod.mk.injEq] at hok
      obtain ⟨hst2, hroot2⟩ := hok
      subst hst2
      subst hroot2
      unfold create_record at hp
      simp only [h1, hopen, Except.ok.injEq] at hp
      split_ifs at hp
      simp only [Except.ok.injEq] at hp
      subst hp
      exact recordAt_after_commit key
        (mstInsert (mstPath c2 k2) (cidOfBlock (Block.raw (encVal v))) entries)
        rootCid0 g now (storeInv_putBlock hinv)
        (by
          rw [mstLookup_insert_other _ _ _ (by simpa [writePath] using hne)]
          exact h4)
        (getBlock_putBlock_mono h5)
  | deleteR c2 k2 =>
    unfold runRepoWrite at hok
    simp only [] at hok
    cases hp : delete_record st did key c2 k2 g now root with
    | error e => rw [hp] at hok; simp at hok
    | ok r =>
      simp only [hp, Except.ok.injEq, Prod.mk.injEq] at hok
      obtain ⟨hst2, hroot2⟩ := hok
      subst hst2
      subst hroot2
      unfold delete_record at hp
      simp only [h1, hopen, Except.ok.injEq] at hp
      split_ifs at hp
      simp only [Except.ok.injEq] at hp
      subst hp
      exact recordAt_after_commit key (mstRemove (mstPath c2 k2) entries)
        rootCid0 g now hinv
        (by
          rw [mstLookup_remove_other _ _ (by simpa [writePath] using hne)]
          exact h4)
        h5

theorem recordAt_runRepoWrites (did key : Bytes) (g : TidGenerator) (now : Nat)
    (collection rkey : Bytes) (R : Val) (cidB : Bytes) :
    ∀ (ws : List RepoWrite) (st : BlockStore) (root : Bytes)
      (st3 : BlockStore) (root3 : Bytes),
      StoreInv st → recordAt st did root collection rkey R cidB →
      (∀ w ∈ ws, writePath w ≠ mstPath collection rkey) →
      runRepoWrites did key g now st root ws = .ok (st3, root3) →
      recordAt st3 did root3 collection rkey R cidB ∧ StoreInv st3 := by
  intro ws
  induction ws with
  | nil =>
    intro st root st3 root3 hinv hat _ hrun
    unfold runRepoWrites at hrun
    simp only [Except.ok.injEq, Prod.mk.injEq] at hrun
    obtain ⟨ha, hb⟩ := hrun
    subst ha
    subst hb
    exact ⟨hat, hinv⟩
  | cons w t ih =>
    intro st root st3 root3 hinv hat havoid hrun
    unfold runRepoWrites at hrun
    cases hw : runRepoWrite st did key g now root w with
    | error e => rw [hw] at hrun; simp at hrun
    | ok pr =>
      obtain ⟨st2, root2⟩ := pr
      simp only [hw] at hrun
      obtain ⟨hat2, hinv2⟩ := recordAt_preserved st did key g now root collection rkey
        R cidB w hinv (havoid w (by simp)) hat st2 root2 hw
      exact ih st2 root2 st3 root3 hinv2 hat2
        (fun w2 hw2 => havoid w2 (by simp [hw2])) hrun

/-- C1: a record value R written at (collection, rkey) by putRecord or
createRecord is returned byte-identically by getRecord on the resulting root,
together with its content CID, and remains so across any later successful
writes at other paths (until a put or delete at the same path). -/
theorem put_then_get_roundtrip (st : BlockStore) (did key collection rkey : Bytes)
    (R : Val) (g : TidGenerator) (now : Nat) (root : Bytes)
    (store2 : BlockStore) (g2 : TidGenerator) (out : RecordWriteOutput)
    (ws : List RepoWrite) (store3 : BlockStore) (root3 : Bytes)
    (g3 : TidGenerator) (now3 : Nat)
    (hinv : StoreInv st) (hwf : wfVal R = true)
    (hw : put_record st did key collection rkey R g now root = .ok (store2, g2, out) ∨
      create_record st did key collection (some rkey) R g now root =
        .ok (store2, g2, out))
    (havoid : ∀ w ∈ ws, writePath w ≠ mstPath collection rkey)
    (hrun : runRepoWrites did key g3 now3 store2 out.newRoot ws = .ok (store3, root3)) :
    get_record store3 did collection rkey root3 =
      .ok (some { uri := atUri did collection rkey, cid := out.cid, value := R }) ∧
    out.cid = cidToBytes (cidOfBlock (Block.raw (encVal R))) := by
  have hstart : recordAt store2 did out.newRoot collection rkey R out.cid ∧
      StoreInv store2 := by
    rcases hw with hw | hw
    · exact put_record_establishes st did key collection rkey R g now root hinv
        store2 g2 out hw
    · exact create_record_establishes st did key collection rkey R g now root hinv
        store2 g2 out hw
  obtain ⟨hat, hinv2⟩ := hstart
  obtain ⟨hat3, hinv3⟩ := recordAt_runRepoWrites did key g3 now3 collection rkey R
    out.cid ws store2 out.newRoot store3 root3 hinv2 hat havoid hrun
  exact ⟨get_record_of_recordAt hwf hat3, hat3.1⟩

set_option maxRecDepth 10000 in
/-- Witness for C1: a concrete putRecord into a fresh repository followed by a
getRecord returns the record byte-identically. -/
theorem put_then_get_roundtrip_witness :
    get_record c1Res.1 [1] [5] [6] (c1Res.2.2.newRoot) =
      .ok (some { uri := atUri [1] [5] [6], cid := c1Res.2.2.cid, value := .vint 7 }) ∧
    c1Res.2.2.cid = cidToBytes (cidOfBlock (Block.raw (encVal (.vint 7)))) :=
  put_then_get_roundtrip c1Init.1 [1] [4] [5] [6] (.vint 7) (TidGenerator.mkNew 3)
    2000000 c1Init.2.1 c1Res.1 c1Res.2.1 c1Res.2.2 [] c1Res.1 c1Res.2.2.newRoot
    (TidGenerator.mkNew 9) 0
    (by unfold StoreInv; decide) (by decide) (Or.inl rfl) (by simp) rfl

end PDS
